import Mathlib

set_option linter.unusedSectionVars false

/-!
Verification of the `cosche` incremental toposort / readiness tracker
(`toposort.hpp`).  Nodes are identified by allocation ids (standing for the
node pointers of the C++ source); the node store (`heap`) is a value-keyed
set of nodes, and the four partitions hold node ids.  The hash containers of
the source are modelled as duplicate-free lists with set semantics: `insert`
is a no-op on a present element and appends otherwise, `erase` filters, and
`begin()` is the list head (the source's iteration order is unspecified, the
list order realizes one admissible order).
-/

namespace Cosche

/-- A task node: the stored task value together with its incoming and
outgoing dependency-edge sets (`_ins` / `_outs` of the source), holding node
ids. -/
structure Node (T : Type) where
  t : T
  ins : List Nat
  outs : List Nat
deriving DecidableEq

/-- The toposort state: allocation counter `nxt`, the owning node store
`heap` (id, node) keyed by value, and the four partitions `_pendings`,
`_blockeds`, `_waitings`, `_planneds` holding node ids. -/
structure Toposort (T : Type) where
  nxt : Nat
  heap : List (Nat × Node T)
  pendings : List Nat
  blockeds : List Nat
  waitings : List Nat
  planneds : List Nat
deriving DecidableEq

variable {T : Type} [DecidableEq T]

/-- Set insert on an id set modelled as a list: no-op when present. -/
def sinsert (x : Nat) (l : List Nat) : List Nat :=
  if x ∈ l then l else l ++ [x]

/-- Set erase on an id set modelled as a list. -/
def serase (x : Nat) (l : List Nat) : List Nat :=
  l.filter (fun y => y != x)

/-- Lookup a node by id in a heap list (models dereferencing a node
pointer). -/
def nodeOfL (h : List (Nat × Node T)) (i : Nat) : Option (Node T) :=
  (h.find? (fun p => p.1 == i)).map (fun p => p.2)

/-- Update the node with id `i` in a heap list. -/
def mapNode (i : Nat) (f : Node T → Node T) (h : List (Nat × Node T)) :
    List (Nat × Node T) :=
  h.map (fun p => if p.1 = i then (p.1, f p.2) else p)

/-- Lookup a node by id in a state. -/
def nodeOf (s : Toposort T) (i : Nat) : Option (Node T) := nodeOfL s.heap i

/-- Incoming-edge set of the node with id `i` (empty for a dangling id). -/
def insOf (s : Toposort T) (i : Nat) : List Nat :=
  ((nodeOf s i).map Node.ins).getD []

/-- Outgoing-edge set of the node with id `i` (empty for a dangling id). -/
def outsOf (s : Toposort T) (i : Nat) : List Nat :=
  ((nodeOf s i).map Node.outs).getD []

/-- Task value stored at id `i`. -/
def valueOf (s : Toposort T) (i : Nat) : Option T := (nodeOf s i).map Node.t

/-- Ids of the nodes owned by the store. -/
def liveIds (s : Toposort T) : List Nat := s.heap.map (fun p => p.1)

/-- Task values present in the store. -/
def heapValues (s : Toposort T) : List T := s.heap.map (fun p => p.2.t)

/-- Does the store hold a node for value `t` (the `_heap.find` test of the
source)? -/
def hasValue (s : Toposort T) (t : T) : Bool := s.heap.any (fun p => p.2.t == t)

/-- Value lookup `_heap.find(make_unique<Node>(t))`, returning the id of the
found node. -/
def heapFind (s : Toposort T) (t : T) : Option Nat :=
  (s.heap.find? (fun p => p.2.t == t)).map (fun p => p.1)

/-- Freshly constructed structure (the constructor runs `clear()` on empty
members). -/
def init : Toposort T := ⟨0, [], [], [], [], []⟩

/-- Model of `Toposort::clear`. -/
def clear (s : Toposort T) : Toposort T :=
  { s with heap := [], pendings := [], blockeds := [], waitings := [],
           planneds := [] }

/-- Model of `Toposort::push` (spec: activate-new): allocate a node for `t`,
insert its pointer into `_pendings`, then insert the node into `_heap`; the
heap insert is keyed by value and is a no-op when the value is already
present — in that case the freshly allocated node is dropped while
`_pendings` keeps its id, mirroring the dangling pointer the C++ leaves. -/
def push (t : T) (s : Toposort T) : Toposort T :=
  { s with nxt := s.nxt + 1,
           pendings := sinsert s.nxt s.pendings,
           heap := if hasValue s t then s.heap
                   else s.heap ++ [(s.nxt, ⟨t, [], []⟩)] }

/-- Model of `Toposort::plan` (spec: stage): like `push` but the new node is
inserted into `_planneds`. -/
def plan (t : T) (s : Toposort T) : Toposort T :=
  { s with nxt := s.nxt + 1,
           planneds := sinsert s.nxt s.planneds,
           heap := if hasValue s t then s.heap
                   else s.heap ++ [(s.nxt, ⟨t, [], []⟩)] }

/-- Model of `Toposort::use` (spec: activate): if `t` has a node that is in
`_planneds`, move it from `_planneds` to `_pendings`. -/
def use (t : T) (s : Toposort T) : Toposort T :=
  match heapFind s t with
  | none => s
  | some i =>
    if i ∈ s.planneds then
      { s with planneds := serase i s.planneds, pendings := sinsert i s.pendings }
    else s

/-- First half of `Toposort::attach`'s body: move the dependent from
`_pendings` to `_blockeds` if its incoming set is (still) empty and it is
not waiting. -/
def blockMove (li : Nat) (s : Toposort T) : Toposort T :=
  if insOf s li = [] ∧ li ∉ s.waitings then
    { s with blockeds := sinsert li s.blockeds,
             pendings := serase li s.pendings }
  else s

/-- Second half of `Toposort::attach`'s body: `lhsNode->_ins.insert(rhsNode);
rhsNode->_outs.insert(lhsNode)`. -/
def addEdge (li ri : Nat) (s1 : Toposort T) : Toposort T :=
  { s1 with heap := mapNode ri (fun n => { n with outs := sinsert li n.outs })
                      (mapNode li (fun n => { n with ins := sinsert ri n.ins })
                        s1.heap) }

/-- Model of `Toposort::attach` (spec: link): when both values have nodes,
first the conditional pending-to-blocked move, then record the edge on both
sides. -/
def attach (lhs rhs : T) (s : Toposort T) : Toposort T :=
  match heapFind s lhs, heapFind s rhs with
  | some li, some ri => addEdge li ri (blockMove li s)
  | _, _ => s

/-- First half of `Toposort::detach`'s body: `lhsNode->_ins.erase(rhsNode);
rhsNode->_outs.erase(lhsNode)`. -/
def delEdge (li ri : Nat) (s : Toposort T) : Toposort T :=
  { s with heap := mapNode ri (fun n => { n with outs := serase li n.outs })
                     (mapNode li (fun n => { n with ins := serase ri n.ins })
                       s.heap) }

/-- Second half of `Toposort::detach`'s body: move the dependent from
`_blockeds` to `_pendings` if its incoming set became empty and it is not
waiting. -/
def unblockMove (li : Nat) (s1 : Toposort T) : Toposort T :=
  if insOf s1 li = [] ∧ li ∉ s1.waitings then
    { s1 with blockeds := serase li s1.blockeds,
              pendings := sinsert li s1.pendings }
  else s1

/-- Model of `Toposort::detach` (spec: unlink): when both values have nodes,
remove the edge on both sides, then the conditional blocked-to-pending
move. -/
def detach (lhs rhs : T) (s : Toposort T) : Toposort T :=
  match heapFind s lhs, heapFind s rhs with
  | some li, some ri => unblockMove li (delEdge li ri s)
  | _, _ => s

/-- State after `out->_ins.erase(tNode)` where `i` is the id of `tNode`. -/
def setInsErased (i out : Nat) (s : Toposort T) : Toposort T :=
  { s with heap := mapNode out (fun n => { n with ins := serase i n.ins }) s.heap }

/-- Conditional move of `Toposort::erase`'s dependent loop: if the
dependent's incoming set is empty, insert it into `_pendings` and erase it
from `_blockeds` (note: no `_waitings` check in the source, unlike `detach`
and `release`). -/
def eraseStepMove (out : Nat) (s1 : Toposort T) : Toposort T :=
  if insOf s1 out = [] then
    { s1 with pendings := sinsert out s1.pendings,
              blockeds := serase out s1.blockeds }
  else s1

/-- One iteration of the dependent loop of `Toposort::erase`. -/
def eraseStep (i : Nat) (s : Toposort T) (out : Nat) : Toposort T :=
  eraseStepMove out (setInsErased i out s)

/-- Final step of `Toposort::erase`: remove the node from
`_pendings`/`_blockeds` and insert it into `_planneds`. -/
def planMove (i : Nat) (s1 : Toposort T) : Toposort T :=
  { s1 with pendings := serase i s1.pendings,
            blockeds := serase i s1.blockeds,
            planneds := sinsert i s1.planneds }

/-- Model of `Toposort::erase` (spec: complete): run the dependent loop over
the node's outgoing set, then remove the node from `_pendings`/`_blockeds`
and insert it into `_planneds`.  The node's own edge sets are left as-is. -/
def erase (t : T) (s : Toposort T) : Toposort T :=
  match heapFind s t with
  | none => s
  | some i => planMove i ((outsOf s i).foldl (eraseStep i) s)

/-- Conditional move of `Toposort::release`'s dependent loop: if the
dependent's incoming set is empty and the dependent is not waiting, erase
it from `_blockeds` and insert it into `_pendings`. -/
def releaseStepMove (out : Nat) (s1 : Toposort T) : Toposort T :=
  if insOf s1 out = [] ∧ out ∉ s1.waitings then
    { s1 with blockeds := serase out s1.blockeds,
              pendings := sinsert out s1.pendings }
  else s1

/-- One iteration of the dependent loop of `Toposort::release`: remove `i`
from the dependent's incoming set, then the conditional move. -/
def releaseStep (i : Nat) (s : Toposort T) (out : Nat) : Toposort T :=
  releaseStepMove out (setInsErased i out s)

/-- Final step of `Toposort::release`: `tNode->_outs.clear()`. -/
def clearOuts (i : Nat) (s1 : Toposort T) : Toposort T :=
  { s1 with heap := mapNode i (fun n => { n with outs := [] }) s1.heap }

/-- Model of `Toposort::release` (spec: sever): run the dependent loop over
the node's outgoing set, then clear the node's outgoing set. -/
def release (t : T) (s : Toposort T) : Toposort T :=
  match heapFind s t with
  | none => s
  | some i => clearOuts i ((outsOf s i).foldl (releaseStep i) s)

/-- Model of `Toposort::halt` (spec: suspend): insert the node into
`_waitings` and erase it from `_blockeds` and `_pendings`. -/
def halt (t : T) (s : Toposort T) : Toposort T :=
  match heapFind s t with
  | none => s
  | some i =>
    { s with waitings := sinsert i s.waitings,
             blockeds := serase i s.blockeds,
             pendings := serase i s.pendings }

/-- Second half of `Toposort::wake`'s body: insert the node into `_pendings`
if its incoming set is empty and into `_blockeds` otherwise. -/
def wakeMove (i : Nat) (s1 : Toposort T) : Toposort T :=
  if insOf s1 i = [] then { s1 with pendings := sinsert i s1.pendings }
  else { s1 with blockeds := sinsert i s1.blockeds }

/-- Model of `Toposort::wake` (spec: resume): erase the node from
`_waitings`, then the reclassification (no check that the node actually was
waiting). -/
def wake (t : T) (s : Toposort T) : Toposort T :=
  match heapFind s t with
  | none => s
  | some i => wakeMove i { s with waitings := serase i s.waitings }

/-- Model of `Toposort::top` (spec: peek-ready): dereference the first
element of `_pendings`.  The source performs the dereference with no
emptiness check; the model has no value to return when `_pendings` is empty
(or holds a dangling id), which it reports as `none`. -/
def top (s : Toposort T) : Option T := s.pendings.head?.bind (valueOf s)

/-- Model of `Toposort::empty` (spec: is-idle). -/
def empty (s : Toposort T) : Bool := s.pendings.isEmpty

/-- Model of `Toposort::waiting` (spec: has-suspended). -/
def waiting (s : Toposort T) : Bool := !s.waitings.isEmpty

/-- Model of `Toposort::cyclic` (spec: is-deadlocked). -/
def cyclic (s : Toposort T) : Bool :=
  empty s && !(waiting s) && !(s.blockeds.isEmpty)

/-- One step of the cycle walk: `*(node->_ins.begin())`, absent when the
incoming set is empty (an end-iterator dereference in the source). -/
def snext (s : Toposort T) (i : Nat) : Option Nat := (insOf s i).head?

/-- First phase of `Toposort::cycle`: follow incoming edges from `n`,
recording visited nodes, until a previously visited node is reached.  Fuel
bounds the walk; exhaustion or an empty incoming set models the undefined
behavior of the source. -/
def findRepeat (s : Toposort T) : Nat → List Nat → Nat → Option Nat
  | 0, _, _ => none
  | fuel + 1, visiteds, n =>
    if n ∈ visiteds then some n
    else
      match snext s n with
      | none => none
      | some m => findRepeat s fuel (n :: visiteds) m

/-- Second phase of `Toposort::cycle`: from the repeated node, collect task
ids along incoming edges until returning to the start (a do-while, so the
start is emitted once and not repeated at the end). -/
def collectCycle (s : Toposort T) : Nat → Nat → Nat → Option (List Nat)
  | 0, _, _ => none
  | fuel + 1, start, cur =>
    match snext s cur with
    | none => none
    | some m =>
      if m = start then some [cur]
      else (collectCycle s fuel start m).map (fun l => cur :: l)

/-- Ids collected by `Toposort::cycle`: empty when not deadlocked, otherwise
the two-phase walk from the first blocked node. -/
def cycleIds (s : Toposort T) : Option (List Nat) :=
  if cyclic s then
    match s.blockeds.head? with
    | none => none
    | some b0 =>
      match findRepeat s (s.heap.length + 1) [] b0 with
      | none => none
      | some n1 => collectCycle s (s.heap.length + 1) n1 n1
  else some []

/-- Values of a list of node ids, absent if any id is dangling. -/
def valuesOf (s : Toposort T) : List Nat → Option (List T)
  | [] => some []
  | i :: rest =>
    match valueOf s i, valuesOf s rest with
    | some v, some vs => some (v :: vs)
    | _, _ => none

/-- Model of `Toposort::cycle` (spec: extract-cycle): the collected ids
mapped to their task values. -/
def cycle (s : Toposort T) : Option (List T) :=
  (cycleIds s).bind (valuesOf s)

/-! ### Basic facts about the set model -/

theorem mem_sinsert {x y : Nat} {l : List Nat} :
    x ∈ sinsert y l ↔ x = y ∨ x ∈ l := by
  unfold sinsert
  by_cases h : y ∈ l
  · simp only [if_pos h]
    constructor
    · exact Or.inr
    · rintro (rfl | hx)
      · exact h
      · exact hx
  · simp only [if_neg h, List.mem_append, List.mem_singleton]
    exact or_comm

theorem mem_serase {x y : Nat} {l : List Nat} :
    x ∈ serase y l ↔ x ∈ l ∧ x ≠ y := by
  simp [serase, List.mem_filter]

theorem sinsert_of_mem {y : Nat} {l : List Nat} (h : y ∈ l) :
    sinsert y l = l := by
  simp [sinsert, h]

theorem serase_of_not_mem {y : Nat} {l : List Nat} (h : y ∉ l) :
    serase y l = l := by
  apply List.filter_eq_self.mpr
  intro a ha
  simp only [bne_iff_ne, ne_eq]
  rintro rfl
  exact h ha

theorem serase_serase {y : Nat} {l : List Nat} :
    serase y (serase y l) = serase y l := by
  apply serase_of_not_mem
  simp [mem_serase]

theorem nodup_sinsert {y : Nat} {l : List Nat} (h : l.Nodup) :
    (sinsert y l).Nodup := by
  unfold sinsert
  by_cases hm : y ∈ l
  · simpa [hm]
  · simp [hm, List.nodup_append, h]

theorem nodup_serase {y : Nat} {l : List Nat} (h : l.Nodup) :
    (serase y l).Nodup := List.Nodup.filter _ h

theorem serase_subset {y : Nat} {l : List Nat} : serase y l ⊆ l := by
  intro a ha
  exact (mem_serase.mp ha).1

/-! ### Heap lookup and update -/

theorem nodeOfL_nil {i : Nat} : nodeOfL ([] : List (Nat × Node T)) i = none := rfl

theorem nodeOfL_cons {p : Nat × Node T} {h : List (Nat × Node T)} {i : Nat} :
    nodeOfL (p :: h) i = if p.1 = i then some p.2 else nodeOfL h i := by
  by_cases hp : p.1 = i
  · simp [nodeOfL, List.find?_cons_of_pos, hp]
  · simp only [nodeOfL, if_neg hp]
    rw [List.find?_cons_of_neg]
    simp [hp]

theorem mapNode_cons {p : Nat × Node T} {h : List (Nat × Node T)} {i : Nat}
    {f : Node T → Node T} :
    mapNode i f (p :: h) =
      (if p.1 = i then (p.1, f p.2) else p) :: mapNode i f h := by
  simp only [mapNode, List.map_cons]

theorem nodeOfL_mapNode {h : List (Nat × Node T)} {i j : Nat}
    {f : Node T → Node T} :
    nodeOfL (mapNode i f h) j =
      if j = i then (nodeOfL h j).map f else nodeOfL h j := by
  induction h with
  | nil =>
    simp only [mapNode, List.map_nil, nodeOfL_nil]
    split <;> rfl
  | cons p tl ih =>
    rw [mapNode_cons]
    by_cases hpi : p.1 = i
    · by_cases hji : j = i
      · subst hji
        simp [nodeOfL_cons, hpi, ih]
      · have hij : i ≠ j := fun hc => hji hc.symm
        simp [nodeOfL_cons, hpi, hij, ih, hji]
    · by_cases hpj : p.1 = j
      · have hji : j ≠ i := by
          rintro rfl
          exact hpi hpj
        simp [nodeOfL_cons, hpi, hpj, hji]
      · simp [nodeOfL_cons, hpi, hpj, ih]

theorem nodeOfL_append {h h2 : List (Nat × Node T)} {j : Nat} :
    nodeOfL (h ++ h2) j =
      match nodeOfL h j with
      | some n => some n
      | none => nodeOfL h2 j := by
  induction h with
  | nil => simp [nodeOfL_nil]
  | cons p tl ih =>
    by_cases hp : p.1 = j
    · simp [nodeOfL_cons, hp]
    · simp [nodeOfL_cons, hp, ih]

theorem liveIds_mapNode {s : Toposort T} {i : Nat} {f : Node T → Node T}
    {rest : Toposort T} (hh : rest.heap = mapNode i f s.heap) :
    liveIds rest = liveIds s := by
  simp only [liveIds, hh, mapNode, List.map_map]
  apply List.map_congr_left
  intro p _
  by_cases hp : p.1 = i <;> simp [hp]

theorem heapValues_mapNode {s : Toposort T} {i : Nat} {f : Node T → Node T}
    {rest : Toposort T} (hh : rest.heap = mapNode i f s.heap)
    (hf : ∀ n, (f n).t = n.t) :
    heapValues rest = heapValues s := by
  simp only [heapValues, hh, mapNode, List.map_map]
  apply List.map_congr_left
  intro p _
  by_cases hp : p.1 = i <;> simp [hp, hf]

/-! ### Value lookup -/

theorem heapFind_eq_none {s : Toposort T} {t : T} :
    heapFind s t = none ↔ t ∉ heapValues s := by
  simp only [heapFind, Option.map_eq_none', List.find?_eq_none, heapValues,
    List.mem_map, beq_iff_eq]
  constructor
  · rintro h ⟨p, hp, rfl⟩
    exact h p hp rfl
  · rintro h p hp rfl
    exact h ⟨p, hp, rfl⟩

theorem heapFind_mem_live {s : Toposort T} {t : T} {i : Nat}
    (h : heapFind s t = some i) : i ∈ liveIds s := by
  simp only [heapFind, Option.map_eq_some'] at h
  obtain ⟨p, hp, rfl⟩ := h
  exact List.mem_map.mpr ⟨p, List.mem_of_find?_eq_some hp, rfl⟩

theorem heapFind_value {s : Toposort T} {t : T} {i : Nat}
    (h : heapFind s t = some i) : ∃ p ∈ s.heap, p.1 = i ∧ p.2.t = t := by
  simp only [heapFind, Option.map_eq_some'] at h
  obtain ⟨p, hp, rfl⟩ := h
  refine ⟨p, List.mem_of_find?_eq_some hp, rfl, ?_⟩
  have := List.find?_some hp
  simpa using this

theorem nodeOfL_isSome_of_mem {h : List (Nat × Node T)} {i : Nat}
    (hm : ∃ p ∈ h, p.1 = i) : (nodeOfL h i).isSome := by
  simp only [nodeOfL, Option.isSome_map']
  rw [List.find?_isSome]
  obtain ⟨p, hp, hpi⟩ := hm
  exact ⟨p, hp, by simp [hpi]⟩

theorem nodeOfL_eq_none_of_not_mem {h : List (Nat × Node T)} {i : Nat}
    (hm : i ∉ h.map (fun p => p.1)) : nodeOfL h i = none := by
  simp only [nodeOfL, Option.map_eq_none', List.find?_eq_none]
  intro p hp
  simp only [beq_iff_eq]
  rintro rfl
  exact hm (List.mem_map.mpr ⟨p, hp, rfl⟩)

theorem nodeOf_isSome_of_find {s : Toposort T} {t : T} {i : Nat}
    (h : heapFind s t = some i) : ∃ n, nodeOf s i = some n := by
  obtain ⟨p, hp, hpi, _⟩ := heapFind_value h
  have := nodeOfL_isSome_of_mem (h := s.heap) (i := i) ⟨p, hp, hpi⟩
  exact Option.isSome_iff_exists.mp this

/-! ### Congruence helpers for structure updates -/

theorem insOf_of_heap_eq {s s' : Toposort T} (hh : s'.heap = s.heap) (j : Nat) :
    insOf s' j = insOf s j := by
  simp [insOf, nodeOf, hh]

theorem outsOf_of_heap_eq {s s' : Toposort T} (hh : s'.heap = s.heap) (j : Nat) :
    outsOf s' j = outsOf s j := by
  simp [outsOf, nodeOf, hh]

/-! ### Characterization of `setInsErased` and the dependent-loop steps -/

theorem setInsErased_insOf {s : Toposort T} {i out : Nat} (j : Nat) :
    insOf (setInsErased i out s) j =
      if j = out then serase i (insOf s j) else insOf s j := by
  simp only [setInsErased, insOf, nodeOf, nodeOfL_mapNode]
  by_cases hj : j = out
  · subst hj
    simp only [if_pos rfl]
    cases hno : nodeOfL s.heap j <;> simp [serase]
  · simp [hj]

theorem setInsErased_outsOf {s : Toposort T} {i out : Nat} (j : Nat) :
    outsOf (setInsErased i out s) j = outsOf s j := by
  simp only [setInsErased, outsOf, nodeOf, nodeOfL_mapNode]
  by_cases hj : j = out
  · subst hj
    simp only [if_pos rfl]
    cases hno : nodeOfL s.heap j <;> simp
  · simp [hj]

theorem setInsErased_pendings {s : Toposort T} {i out : Nat} :
    (setInsErased i out s).pendings = s.pendings := rfl

theorem setInsErased_blockeds {s : Toposort T} {i out : Nat} :
    (setInsErased i out s).blockeds = s.blockeds := rfl

theorem setInsErased_waitings {s : Toposort T} {i out : Nat} :
    (setInsErased i out s).waitings = s.waitings := rfl

theorem setInsErased_planneds {s : Toposort T} {i out : Nat} :
    (setInsErased i out s).planneds = s.planneds := rfl

theorem setInsErased_nxt {s : Toposort T} {i out : Nat} :
    (setInsErased i out s).nxt = s.nxt := rfl

theorem setInsErased_liveIds {s : Toposort T} {i out : Nat} :
    liveIds (setInsErased i out s) = liveIds s := by
  have h : (setInsErased i out s).heap =
      mapNode out (fun n => { n with ins := serase i n.ins }) s.heap := rfl
  exact liveIds_mapNode h

theorem setInsErased_heapValues {s : Toposort T} {i out : Nat} :
    heapValues (setInsErased i out s) = heapValues s := by
  have h : (setInsErased i out s).heap =
      mapNode out (fun n => { n with ins := serase i n.ins }) s.heap := rfl
  exact heapValues_mapNode h (fun _ => rfl)

theorem releaseStepMove_insOf {s1 : Toposort T} {out : Nat} (j : Nat) :
    insOf (releaseStepMove out s1) j = insOf s1 j := by
  unfold releaseStepMove
  split
  · exact insOf_of_heap_eq rfl j
  · rfl

theorem releaseStepMove_outsOf {s1 : Toposort T} {out : Nat} (j : Nat) :
    outsOf (releaseStepMove out s1) j = outsOf s1 j := by
  unfold releaseStepMove
  split
  · exact outsOf_of_heap_eq rfl j
  · rfl

theorem releaseStepMove_waitings {s1 : Toposort T} {out : Nat} :
    (releaseStepMove out s1).waitings = s1.waitings := by
  unfold releaseStepMove
  split <;> rfl

theorem releaseStepMove_planneds {s1 : Toposort T} {out : Nat} :
    (releaseStepMove out s1).planneds = s1.planneds := by
  unfold releaseStepMove
  split <;> rfl

theorem releaseStepMove_nxt {s1 : Toposort T} {out : Nat} :
    (releaseStepMove out s1).nxt = s1.nxt := by
  unfold releaseStepMove
  split <;> rfl

theorem releaseStepMove_heap {s1 : Toposort T} {out : Nat} :
    (releaseStepMove out s1).heap = s1.heap := by
  unfold releaseStepMove
  split <;> rfl

theorem releaseStepMove_pendings_mem {s1 : Toposort T} {out : Nat} (x : Nat) :
    (x ∈ (releaseStepMove out s1).pendings ↔
      x ∈ s1.pendings ∨
        (x = out ∧ insOf s1 out = [] ∧ out ∉ s1.waitings)) := by
  unfold releaseStepMove
  split
  · rename_i hc
    simp only [mem_sinsert]
    constructor
    · rintro (rfl | hx)
      · exact Or.inr ⟨rfl, hc.1, hc.2⟩
      · exact Or.inl hx
    · rintro (hx | ⟨rfl, _, _⟩)
      · exact Or.inr hx
      · exact Or.inl rfl
  · rename_i hc
    constructor
    · exact Or.inl
    · rintro (hx | ⟨rfl, h1, h2⟩)
      · exact hx
      · exact absurd ⟨h1, h2⟩ hc

theorem releaseStepMove_blockeds_mem {s1 : Toposort T} {out : Nat} (x : Nat) :
    (x ∈ (releaseStepMove out s1).blockeds ↔
      x ∈ s1.blockeds ∧
        ¬(x = out ∧ insOf s1 out = [] ∧ out ∉ s1.waitings)) := by
  unfold releaseStepMove
  split
  · rename_i hc
    simp only [mem_serase]
    constructor
    · rintro ⟨hx, hne⟩
      exact ⟨hx, fun hcc => hne hcc.1⟩
    · rintro ⟨hx, hne⟩
      exact ⟨hx, fun hcc => hne ⟨hcc, hc.1, hc.2⟩⟩
  · rename_i hc
    constructor
    · intro hx
      refine ⟨hx, ?_⟩
      rintro ⟨rfl, h1, h2⟩
      exact hc ⟨h1, h2⟩
    · exact And.left

theorem releaseStep_insOf {s : Toposort T} {i out : Nat} (j : Nat) :
    insOf (releaseStep i s out) j =
      if j = out then serase i (insOf s j) else insOf s j := by
  unfold releaseStep
  rw [releaseStepMove_insOf, setInsErased_insOf]

theorem releaseStep_outsOf {s : Toposort T} {i out : Nat} (j : Nat) :
    outsOf (releaseStep i s out) j = outsOf s j := by
  unfold releaseStep
  rw [releaseStepMove_outsOf, setInsErased_outsOf]

theorem releaseStep_waitings {s : Toposort T} {i out : Nat} :
    (releaseStep i s out).waitings = s.waitings := by
  unfold releaseStep
  rw [releaseStepMove_waitings, setInsErased_waitings]

theorem releaseStep_planneds {s : Toposort T} {i out : Nat} :
    (releaseStep i s out).planneds = s.planneds := by
  unfold releaseStep
  rw [releaseStepMove_planneds, setInsErased_planneds]

theorem releaseStep_nxt {s : Toposort T} {i out : Nat} :
    (releaseStep i s out).nxt = s.nxt := by
  unfold releaseStep
  rw [releaseStepMove_nxt, setInsErased_nxt]

theorem releaseStep_liveIds {s : Toposort T} {i out : Nat} :
    liveIds (releaseStep i s out) = liveIds s := by
  unfold releaseStep
  have h1 : liveIds (releaseStepMove out (setInsErased i out s)) =
      liveIds (setInsErased i out s) := by
    simp [liveIds, releaseStepMove_heap]
  rw [h1, setInsErased_liveIds]

theorem releaseStep_heapValues {s : Toposort T} {i out : Nat} :
    heapValues (releaseStep i s out) = heapValues s := by
  unfold releaseStep
  have h1 : heapValues (releaseStepMove out (setInsErased i out s)) =
      heapValues (setInsErased i out s) := by
    simp [heapValues, releaseStepMove_heap]
  rw [h1, setInsErased_heapValues]

theorem releaseStep_pendings_mem {s : Toposort T} {i out : Nat} (x : Nat) :
    (x ∈ (releaseStep i s out).pendings ↔
      x ∈ s.pendings ∨
        (x = out ∧ serase i (insOf s out) = [] ∧ out ∉ s.waitings)) := by
  unfold releaseStep
  rw [releaseStepMove_pendings_mem]
  rw [setInsErased_insOf, if_pos rfl, setInsErased_waitings, setInsErased_pendings]

theorem releaseStep_blockeds_mem {s : Toposort T} {i out : Nat} (x : Nat) :
    (x ∈ (releaseStep i s out).blockeds ↔
      x ∈ s.blockeds ∧
        ¬(x = out ∧ serase i (insOf s out) = [] ∧ out ∉ s.waitings)) := by
  unfold releaseStep
  rw [releaseStepMove_blockeds_mem]
  rw [setInsErased_insOf, if_pos rfl, setInsErased_waitings, setInsErased_blockeds]

/-! ### Characterization of the `release` dependent loop (fold) -/

theorem foldRelease_waitings (i : Nat) (L : List Nat) (s : Toposort T) :
    (L.foldl (releaseStep i) s).waitings = s.waitings := by
  induction L generalizing s with
  | nil => rfl
  | cons a L ih => rw [List.foldl_cons, ih, releaseStep_waitings]

theorem foldRelease_planneds (i : Nat) (L : List Nat) (s : Toposort T) :
    (L.foldl (releaseStep i) s).planneds = s.planneds := by
  induction L generalizing s with
  | nil => rfl
  | cons a L ih => rw [List.foldl_cons, ih, releaseStep_planneds]

theorem foldRelease_nxt (i : Nat) (L : List Nat) (s : Toposort T) :
    (L.foldl (releaseStep i) s).nxt = s.nxt := by
  induction L generalizing s with
  | nil => rfl
  | cons a L ih => rw [List.foldl_cons, ih, releaseStep_nxt]

theorem foldRelease_liveIds (i : Nat) (L : List Nat) (s : Toposort T) :
    liveIds (L.foldl (releaseStep i) s) = liveIds s := by
  induction L generalizing s with
  | nil => rfl
  | cons a L ih => rw [List.foldl_cons, ih, releaseStep_liveIds]

theorem foldRelease_heapValues (i : Nat) (L : List Nat) (s : Toposort T) :
    heapValues (L.foldl (releaseStep i) s) = heapValues s := by
  induction L generalizing s with
  | nil => rfl
  | cons a L ih => rw [List.foldl_cons, ih, releaseStep_heapValues]

theorem foldRelease_outsOf (i : Nat) (L : List Nat) (s : Toposort T) (j : Nat) :
    outsOf (L.foldl (releaseStep i) s) j = outsOf s j := by
  induction L generalizing s with
  | nil => rfl
  | cons a L ih => rw [List.foldl_cons, ih, releaseStep_outsOf]

theorem foldRelease_insOf (i : Nat) (L : List Nat) (s : Toposort T) (j : Nat) :
    insOf (L.foldl (releaseStep i) s) j =
      if j ∈ L then serase i (insOf s j) else insOf s j := by
  induction L generalizing s with
  | nil => simp
  | cons a L ih =>
    rw [List.foldl_cons, ih, releaseStep_insOf]
    by_cases hja : j = a
    · subst hja
      by_cases hj : j ∈ L
      · rw [if_pos hj, if_pos rfl, serase_serase,
          if_pos (List.mem_cons.mpr (Or.inl rfl))]
      · rw [if_neg hj, if_pos rfl, if_pos (List.mem_cons.mpr (Or.inl rfl))]
    · rw [if_neg hja]
      by_cases hj : j ∈ L
      · rw [if_pos hj, if_pos (List.mem_cons.mpr (Or.inr hj))]
      · rw [if_neg hj, if_neg (by simp [List.mem_cons, hja, hj])]

theorem foldRelease_pendings_mem (i : Nat) (L : List Nat) (s : Toposort T)
    (x : Nat) :
    (x ∈ (L.foldl (releaseStep i) s).pendings ↔
      x ∈ s.pendings ∨
        (x ∈ L ∧ serase i (insOf s x) = [] ∧ x ∉ s.waitings)) := by
  induction L generalizing s with
  | nil => simp
  | cons a L ih =>
    rw [List.foldl_cons, ih, releaseStep_pendings_mem, releaseStep_insOf,
      releaseStep_waitings]
    by_cases hxa : x = a
    · subst hxa
      rw [if_pos rfl, serase_serase]
      constructor
      · rintro ((hp | ⟨_, hc⟩) | ⟨_, hc⟩)
        · exact Or.inl hp
        · exact Or.inr ⟨List.mem_cons.mpr (Or.inl rfl), hc⟩
        · exact Or.inr ⟨List.mem_cons.mpr (Or.inl rfl), hc⟩
      · rintro (hp | ⟨_, hc⟩)
        · exact Or.inl (Or.inl hp)
        · exact Or.inl (Or.inr ⟨rfl, hc⟩)
    · rw [if_neg hxa]
      constructor
      · rintro ((hp | ⟨hxa2, _⟩) | ⟨hL, hc⟩)
        · exact Or.inl hp
        · exact absurd hxa2 hxa
        · exact Or.inr ⟨List.mem_cons.mpr (Or.inr hL), hc⟩
      · rintro (hp | ⟨hL, hc⟩)
        · exact Or.inl (Or.inl hp)
        · rcases List.mem_cons.mp hL with h1 | h1
          · exact absurd h1 hxa
          · exact Or.inr ⟨h1, hc⟩

theorem foldRelease_blockeds_mem (i : Nat) (L : List Nat) (s : Toposort T)
    (x : Nat) :
    (x ∈ (L.foldl (releaseStep i) s).blockeds ↔
      x ∈ s.blockeds ∧
        ¬(x ∈ L ∧ serase i (insOf s x) = [] ∧ x ∉ s.waitings)) := by
  induction L generalizing s with
  | nil => simp
  | cons a L ih =>
    rw [List.foldl_cons, ih, releaseStep_blockeds_mem, releaseStep_insOf,
      releaseStep_waitings]
    by_cases hxa : x = a
    · subst hxa
      rw [if_pos rfl, serase_serase]
      constructor
      · rintro ⟨⟨hb, hna⟩, hnl⟩
        refine ⟨hb, ?_⟩
        rintro ⟨_, hc⟩
        exact hna ⟨rfl, hc⟩
      · rintro ⟨hb, hn⟩
        refine ⟨⟨hb, ?_⟩, ?_⟩
        · rintro ⟨_, hc⟩
          exact hn ⟨List.mem_cons.mpr (Or.inl rfl), hc⟩
        · rintro ⟨_, hc⟩
          exact hn ⟨List.mem_cons.mpr (Or.inl rfl), hc⟩
    · rw [if_neg hxa]
      constructor
      · rintro ⟨⟨hb, _⟩, hnl⟩
        refine ⟨hb, ?_⟩
        rintro ⟨hL, hc⟩
        rcases List.mem_cons.mp hL with h1 | h1
        · exact hxa h1
        · exact hnl ⟨h1, hc⟩
      · rintro ⟨hb, hn⟩
        refine ⟨⟨hb, fun hcc => hxa hcc.1⟩, ?_⟩
        rintro ⟨hL, hc⟩
        exact hn ⟨List.mem_cons.mpr (Or.inr hL), hc⟩

/-! ### Characterization of the `erase` dependent loop -/

theorem eraseStepMove_insOf {s1 : Toposort T} {out : Nat} (j : Nat) :
    insOf (eraseStepMove out s1) j = insOf s1 j := by
  unfold eraseStepMove
  split
  · exact insOf_of_heap_eq rfl j
  · rfl

theorem eraseStepMove_outsOf {s1 : Toposort T} {out : Nat} (j : Nat) :
    outsOf (eraseStepMove out s1) j = outsOf s1 j := by
  unfold eraseStepMove
  split
  · exact outsOf_of_heap_eq rfl j
  · rfl

theorem eraseStepMove_waitings {s1 : Toposort T} {out : Nat} :
    (eraseStepMove out s1).waitings = s1.waitings := by
  unfold eraseStepMove
  split <;> rfl

theorem eraseStepMove_planneds {s1 : Toposort T} {out : Nat} :
    (eraseStepMove out s1).planneds = s1.planneds := by
  unfold eraseStepMove
  split <;> rfl

theorem eraseStepMove_nxt {s1 : Toposort T} {out : Nat} :
    (eraseStepMove out s1).nxt = s1.nxt := by
  unfold eraseStepMove
  split <;> rfl

theorem eraseStepMove_heap {s1 : Toposort T} {out : Nat} :
    (eraseStepMove out s1).heap = s1.heap := by
  unfold eraseStepMove
  split <;> rfl

theorem eraseStepMove_pendings_mem {s1 : Toposort T} {out : Nat} (x : Nat) :
    (x ∈ (eraseStepMove out s1).pendings ↔
      x ∈ s1.pendings ∨ (x = out ∧ insOf s1 out = [])) := by
  unfold eraseStepMove
  split
  · rename_i hc
    simp only [mem_sinsert]
    constructor
    · rintro (rfl | hx)
      · exact Or.inr ⟨rfl, hc⟩
      · exact Or.inl hx
    · rintro (hx | ⟨rfl, _⟩)
      · exact Or.inr hx
      · exact Or.inl rfl
  · rename_i hc
    constructor
    · exact Or.inl
    · rintro (hx | ⟨rfl, h1⟩)
      · exact hx
      · exact absurd h1 hc

theorem eraseStepMove_blockeds_mem {s1 : Toposort T} {out : Nat} (x : Nat) :
    (x ∈ (eraseStepMove out s1).blockeds ↔
      x ∈ s1.blockeds ∧ ¬(x = out ∧ insOf s1 out = [])) := by
  unfold eraseStepMove
  split
  · rename_i hc
    simp only [mem_serase]
    constructor
    · rintro ⟨hx, hne⟩
      exact ⟨hx, fun hcc => hne hcc.1⟩
    · rintro ⟨hx, hne⟩
      exact ⟨hx, fun hcc => hne ⟨hcc, hc⟩⟩
  · rename_i hc
    constructor
    · intro hx
      refine ⟨hx, ?_⟩
      rintro ⟨rfl, h1⟩
      exact hc h1
    · exact And.left

theorem eraseStep_insOf {s : Toposort T} {i out : Nat} (j : Nat) :
    insOf (eraseStep i s out) j =
      if j = out then serase i (insOf s j) else insOf s j := by
  unfold eraseStep
  rw [eraseStepMove_insOf, setInsErased_insOf]

theorem eraseStep_outsOf {s : Toposort T} {i out : Nat} (j : Nat) :
    outsOf (eraseStep i s out) j = outsOf s j := by
  unfold eraseStep
  rw [eraseStepMove_outsOf, setInsErased_outsOf]

theorem eraseStep_waitings {s : Toposort T} {i out : Nat} :
    (eraseStep i s out).waitings = s.waitings := by
  unfold eraseStep
  rw [eraseStepMove_waitings, setInsErased_waitings]

theorem eraseStep_planneds {s : Toposort T} {i out : Nat} :
    (eraseStep i s out).planneds = s.planneds := by
  unfold eraseStep
  rw [eraseStepMove_planneds, setInsErased_planneds]

theorem eraseStep_nxt {s : Toposort T} {i out : Nat} :
    (eraseStep i s out).nxt = s.nxt := by
  unfold eraseStep
  rw [eraseStepMove_nxt, setInsErased_nxt]

theorem eraseStep_liveIds {s : Toposort T} {i out : Nat} :
    liveIds (eraseStep i s out) = liveIds s := by
  unfold eraseStep
  have h1 : liveIds (eraseStepMove out (setInsErased i out s)) =
      liveIds (setInsErased i out s) := by
    simp [liveIds, eraseStepMove_heap]
  rw [h1, setInsErased_liveIds]

theorem eraseStep_heapValues {s : Toposort T} {i out : Nat} :
    heapValues (eraseStep i s out) = heapValues s := by
  unfold eraseStep
  have h1 : heapValues (eraseStepMove out (setInsErased i out s)) =
      heapValues (setInsErased i out s) := by
    simp [heapValues, eraseStepMove_heap]
  rw [h1, setInsErased_heapValues]

theorem eraseStep_pendings_mem {s : Toposort T} {i out : Nat} (x : Nat) :
    (x ∈ (eraseStep i s out).pendings ↔
      x ∈ s.pendings ∨ (x = out ∧ serase i (insOf s out) = [])) := by
  unfold eraseStep
  rw [eraseStepMove_pendings_mem]
  rw [setInsErased_insOf, if_pos rfl, setInsErased_pendings]

theorem eraseStep_blockeds_mem {s : Toposort T} {i out : Nat} (x : Nat) :
    (x ∈ (eraseStep i s out).blockeds ↔
      x ∈ s.blockeds ∧ ¬(x = out ∧ serase i (insOf s out) = [])) := by
  unfold eraseStep
  rw [eraseStepMove_blockeds_mem]
  rw [setInsErased_insOf, if_pos rfl, setInsErased_blockeds]

theorem foldErase_waitings (i : Nat) (L : List Nat) (s : Toposort T) :
    (L.foldl (eraseStep i) s).waitings = s.waitings := by
  induction L generalizing s with
  | nil => rfl
  | cons a L ih => rw [List.foldl_cons, ih, eraseStep_waitings]

theorem foldErase_planneds (i : Nat) (L : List Nat) (s : Toposort T) :
    (L.foldl (eraseStep i) s).planneds = s.planneds := by
  induction L generalizing s with
  | nil => rfl
  | cons a L ih => rw [List.foldl_cons, ih, eraseStep_planneds]

theorem foldErase_nxt (i : Nat) (L : List Nat) (s : Toposort T) :
    (L.foldl (eraseStep i) s).nxt = s.nxt := by
  induction L generalizing s with
  | nil => rfl
  | cons a L ih => rw [List.foldl_cons, ih, eraseStep_nxt]

theorem foldErase_liveIds (i : Nat) (L : List Nat) (s : Toposort T) :
    liveIds (L.foldl (eraseStep i) s) = liveIds s := by
  induction L generalizing s with
  | nil => rfl
  | cons a L ih => rw [List.foldl_cons, ih, eraseStep_liveIds]

theorem foldErase_heapValues (i : Nat) (L : List Nat) (s : Toposort T) :
    heapValues (L.foldl (eraseStep i) s) = heapValues s := by
  induction L generalizing s with
  | nil => rfl
  | cons a L ih => rw [List.foldl_cons, ih, eraseStep_heapValues]

theorem foldErase_outsOf (i : Nat) (L : List Nat) (s : Toposort T) (j : Nat) :
    outsOf (L.foldl (eraseStep i) s) j = outsOf s j := by
  induction L generalizing s with
  | nil => rfl
  | cons a L ih => rw [List.foldl_cons, ih, eraseStep_outsOf]

theorem foldErase_insOf (i : Nat) (L : List Nat) (s : Toposort T) (j : Nat) :
    insOf (L.foldl (eraseStep i) s) j =
      if j ∈ L then serase i (insOf s j) else insOf s j := by
  induction L generalizing s with
  | nil => simp
  | cons a L ih =>
    rw [List.foldl_cons, ih, eraseStep_insOf]
    by_cases hja : j = a
    · subst hja
      by_cases hj : j ∈ L
      · rw [if_pos hj, if_pos rfl, serase_serase,
          if_pos (List.mem_cons.mpr (Or.inl rfl))]
      · rw [if_neg hj, if_pos rfl, if_pos (List.mem_cons.mpr (Or.inl rfl))]
    · rw [if_neg hja]
      by_cases hj : j ∈ L
      · rw [if_pos hj, if_pos (List.mem_cons.mpr (Or.inr hj))]
      · rw [if_neg hj, if_neg (by simp [List.mem_cons, hja, hj])]

theorem foldErase_pendings_mem (i : Nat) (L : List Nat) (s : Toposort T)
    (x : Nat) :
    (x ∈ (L.foldl (eraseStep i) s).pendings ↔
      x ∈ s.pendings ∨ (x ∈ L ∧ serase i (insOf s x) = [])) := by
  induction L generalizing s with
  | nil => simp
  | cons a L ih =>
    rw [List.foldl_cons, ih, eraseStep_pendings_mem, eraseStep_insOf]
    by_cases hxa : x = a
    · subst hxa
      rw [if_pos rfl, serase_serase]
      constructor
      · rintro ((hp | ⟨_, hc⟩) | ⟨_, hc⟩)
        · exact Or.inl hp
        · exact Or.inr ⟨List.mem_cons.mpr (Or.inl rfl), hc⟩
        · exact Or.inr ⟨List.mem_cons.mpr (Or.inl rfl), hc⟩
      · rintro (hp | ⟨_, hc⟩)
        · exact Or.inl (Or.inl hp)
        · exact Or.inl (Or.inr ⟨rfl, hc⟩)
    · rw [if_neg hxa]
      constructor
      · rintro ((hp | ⟨hxa2, _⟩) | ⟨hL, hc⟩)
        · exact Or.inl hp
        · exact absurd hxa2 hxa
        · exact Or.inr ⟨List.mem_cons.mpr (Or.inr hL), hc⟩
      · rintro (hp | ⟨hL, hc⟩)
        · exact Or.inl (Or.inl hp)
        · rcases List.mem_cons.mp hL with h1 | h1
          · exact absurd h1 hxa
          · exact Or.inr ⟨h1, hc⟩

theorem foldErase_blockeds_mem (i : Nat) (L : List Nat) (s : Toposort T)
    (x : Nat) :
    (x ∈ (L.foldl (eraseStep i) s).blockeds ↔
      x ∈ s.blockeds ∧ ¬(x ∈ L ∧ serase i (insOf s x) = [])) := by
  induction L generalizing s with
  | nil => simp
  | cons a L ih =>
    rw [List.foldl_cons, ih, eraseStep_blockeds_mem, eraseStep_insOf]
    by_cases hxa : x = a
    · subst hxa
      rw [if_pos rfl, serase_serase]
      constructor
      · rintro ⟨⟨hb, hna⟩, _⟩
        refine ⟨hb, ?_⟩
        rintro ⟨_, hc⟩
        exact hna ⟨rfl, hc⟩
      · rintro ⟨hb, hn⟩
        refine ⟨⟨hb, ?_⟩, ?_⟩
        · rintro ⟨_, hc⟩
          exact hn ⟨List.mem_cons.mpr (Or.inl rfl), hc⟩
        · rintro ⟨_, hc⟩
          exact hn ⟨List.mem_cons.mpr (Or.inl rfl), hc⟩
    · rw [if_neg hxa]
      constructor
      · rintro ⟨⟨hb, _⟩, hnl⟩
        refine ⟨hb, ?_⟩
        rintro ⟨hL, hc⟩
        rcases List.mem_cons.mp hL with h1 | h1
        · exact hxa h1
        · exact hnl ⟨h1, hc⟩
      · rintro ⟨hb, hn⟩
        refine ⟨⟨hb, fun hcc => hxa hcc.1⟩, ?_⟩
        rintro ⟨hL, hc⟩
        exact hn ⟨List.mem_cons.mpr (Or.inr hL), hc⟩

/-! ### Characterization of `clearOuts`, `release` and `erase` -/

theorem clearOuts_insOf {s1 : Toposort T} {i : Nat} (j : Nat) :
    insOf (clearOuts i s1) j = insOf s1 j := by
  simp only [clearOuts, insOf, nodeOf, nodeOfL_mapNode]
  by_cases hj : j = i
  · subst hj
    simp only [if_pos rfl]
    cases hno : nodeOfL s1.heap j <;> simp
  · simp [hj]

theorem clearOuts_outsOf {s1 : Toposort T} {i : Nat} (j : Nat) :
    outsOf (clearOuts i s1) j = if j = i then [] else outsOf s1 j := by
  simp only [clearOuts, outsOf, nodeOf, nodeOfL_mapNode]
  by_cases hj : j = i
  · subst hj
    simp only [if_pos rfl]
    cases hno : nodeOfL s1.heap j <;> simp
  · simp [hj]

theorem clearOuts_pendings {s1 : Toposort T} {i : Nat} :
    (clearOuts i s1).pendings = s1.pendings := rfl

theorem clearOuts_blockeds {s1 : Toposort T} {i : Nat} :
    (clearOuts i s1).blockeds = s1.blockeds := rfl

theorem clearOuts_waitings {s1 : Toposort T} {i : Nat} :
    (clearOuts i s1).waitings = s1.waitings := rfl

theorem clearOuts_planneds {s1 : Toposort T} {i : Nat} :
    (clearOuts i s1).planneds = s1.planneds := rfl

theorem clearOuts_nxt {s1 : Toposort T} {i : Nat} :
    (clearOuts i s1).nxt = s1.nxt := rfl

theorem clearOuts_liveIds {s1 : Toposort T} {i : Nat} :
    liveIds (clearOuts i s1) = liveIds s1 := by
  have h : (clearOuts i s1).heap =
      mapNode i (fun n => { n with outs := [] }) s1.heap := rfl
  exact liveIds_mapNode h

theorem clearOuts_heapValues {s1 : Toposort T} {i : Nat} :
    heapValues (clearOuts i s1) = heapValues s1 := by
  have h : (clearOuts i s1).heap =
      mapNode i (fun n => { n with outs := [] }) s1.heap := rfl
  exact heapValues_mapNode h (fun _ => rfl)

theorem release_insOf {s : Toposort T} {t : T} {i : Nat}
    (hf : heapFind s t = some i) (j : Nat) :
    insOf (release t s) j =
      if j ∈ outsOf s i then serase i (insOf s j) else insOf s j := by
  simp only [release, hf]
  rw [clearOuts_insOf, foldRelease_insOf]

theorem release_outsOf {s : Toposort T} {t : T} {i : Nat}
    (hf : heapFind s t = some i) (j : Nat) :
    outsOf (release t s) j = if j = i then [] else outsOf s j := by
  simp only [release, hf]
  rw [clearOuts_outsOf, foldRelease_outsOf]

theorem release_waitings {s : Toposort T} {t : T} {i : Nat}
    (hf : heapFind s t = some i) :
    (release t s).waitings = s.waitings := by
  simp only [release, hf]
  rw [clearOuts_waitings, foldRelease_waitings]

theorem release_planneds {s : Toposort T} {t : T} {i : Nat}
    (hf : heapFind s t = some i) :
    (release t s).planneds = s.planneds := by
  simp only [release, hf]
  rw [clearOuts_planneds, foldRelease_planneds]

theorem release_nxt {s : Toposort T} {t : T} {i : Nat}
    (hf : heapFind s t = some i) :
    (release t s).nxt = s.nxt := by
  simp only [release, hf]
  rw [clearOuts_nxt, foldRelease_nxt]

theorem release_liveIds {s : Toposort T} {t : T} {i : Nat}
    (hf : heapFind s t = some i) :
    liveIds (release t s) = liveIds s := by
  simp only [release, hf]
  rw [clearOuts_liveIds, foldRelease_liveIds]

theorem release_heapValues {s : Toposort T} {t : T} {i : Nat}
    (hf : heapFind s t = some i) :
    heapValues (release t s) = heapValues s := by
  simp only [release, hf]
  rw [clearOuts_heapValues, foldRelease_heapValues]

theorem release_pendings_mem {s : Toposort T} {t : T} {i : Nat}
    (hf : heapFind s t = some i) (x : Nat) :
    (x ∈ (release t s).pendings ↔
      x ∈ s.pendings ∨
        (x ∈ outsOf s i ∧ serase i (insOf s x) = [] ∧ x ∉ s.waitings)) := by
  simp only [release, hf]
  rw [clearOuts_pendings, foldRelease_pendings_mem]

theorem release_blockeds_mem {s : Toposort T} {t : T} {i : Nat}
    (hf : heapFind s t = some i) (x : Nat) :
    (x ∈ (release t s).blockeds ↔
      x ∈ s.blockeds ∧
        ¬(x ∈ outsOf s i ∧ serase i (insOf s x) = [] ∧ x ∉ s.waitings)) := by
  simp only [release, hf]
  rw [clearOuts_blockeds, foldRelease_blockeds_mem]

theorem planMove_insOf {s1 : Toposort T} {i : Nat} (j : Nat) :
    insOf (planMove i s1) j = insOf s1 j := rfl

theorem planMove_outsOf {s1 : Toposort T} {i : Nat} (j : Nat) :
    outsOf (planMove i s1) j = outsOf s1 j := rfl

theorem planMove_waitings {s1 : Toposort T} {i : Nat} :
    (planMove i s1).waitings = s1.waitings := rfl

theorem planMove_nxt {s1 : Toposort T} {i : Nat} :
    (planMove i s1).nxt = s1.nxt := rfl

theorem planMove_liveIds {s1 : Toposort T} {i : Nat} :
    liveIds (planMove i s1) = liveIds s1 := rfl

theorem planMove_heapValues {s1 : Toposort T} {i : Nat} :
    heapValues (planMove i s1) = heapValues s1 := rfl

theorem planMove_pendings {s1 : Toposort T} {i : Nat} :
    (planMove i s1).pendings = serase i s1.pendings := rfl

theorem planMove_blockeds {s1 : Toposort T} {i : Nat} :
    (planMove i s1).blockeds = serase i s1.blockeds := rfl

theorem planMove_planneds {s1 : Toposort T} {i : Nat} :
    (planMove i s1).planneds = sinsert i s1.planneds := rfl

theorem erase_insOf {s : Toposort T} {t : T} {i : Nat}
    (hf : heapFind s t = some i) (j : Nat) :
    insOf (erase t s) j =
      if j ∈ outsOf s i then serase i (insOf s j) else insOf s j := by
  simp only [erase, hf]
  rw [planMove_insOf, foldErase_insOf]

theorem erase_outsOf {s : Toposort T} {t : T} {i : Nat}
    (hf : heapFind s t = some i) (j : Nat) :
    outsOf (erase t s) j = outsOf s j := by
  simp only [erase, hf]
  rw [planMove_outsOf, foldErase_outsOf]

theorem erase_waitings {s : Toposort T} {t : T} {i : Nat}
    (hf : heapFind s t = some i) :
    (erase t s).waitings = s.waitings := by
  simp only [erase, hf]
  rw [planMove_waitings, foldErase_waitings]

theorem erase_nxt {s : Toposort T} {t : T} {i : Nat}
    (hf : heapFind s t = some i) :
    (erase t s).nxt = s.nxt := by
  simp only [erase, hf]
  rw [planMove_nxt, foldErase_nxt]

theorem erase_liveIds {s : Toposort T} {t : T} {i : Nat}
    (hf : heapFind s t = some i) :
    liveIds (erase t s) = liveIds s := by
  simp only [erase, hf]
  rw [planMove_liveIds, foldErase_liveIds]

theorem erase_heapValues {s : Toposort T} {t : T} {i : Nat}
    (hf : heapFind s t = some i) :
    heapValues (erase t s) = heapValues s := by
  simp only [erase, hf]
  rw [planMove_heapValues, foldErase_heapValues]

theorem erase_planneds_mem {s : Toposort T} {t : T} {i : Nat}
    (hf : heapFind s t = some i) (x : Nat) :
    (x ∈ (erase t s).planneds ↔ x = i ∨ x ∈ s.planneds) := by
  simp only [erase, hf, planMove_planneds, mem_sinsert]
  rw [foldErase_planneds]

theorem erase_pendings_mem {s : Toposort T} {t : T} {i : Nat}
    (hf : heapFind s t = some i) (x : Nat) :
    (x ∈ (erase t s).pendings ↔
      (x ∈ s.pendings ∨ (x ∈ outsOf s i ∧ serase i (insOf s x) = [])) ∧
        x ≠ i) := by
  simp only [erase, hf, planMove_pendings, mem_serase]
  rw [foldErase_pendings_mem]

theorem erase_blockeds_mem {s : Toposort T} {t : T} {i : Nat}
    (hf : heapFind s t = some i) (x : Nat) :
    (x ∈ (erase t s).blockeds ↔
      (x ∈ s.blockeds ∧ ¬(x ∈ outsOf s i ∧ serase i (insOf s x) = [])) ∧
        x ≠ i) := by
  simp only [erase, hf, planMove_blockeds, mem_serase]
  rw [foldErase_blockeds_mem]

/-! ### Characterization of `attach`, `detach`, `wake`, `use`, `halt` -/

theorem map_fst_mapNode {h : List (Nat × Node T)} {i : Nat}
    {f : Node T → Node T} :
    (mapNode i f h).map (fun p => p.1) = h.map (fun p => p.1) := by
  simp only [mapNode, List.map_map]
  apply List.map_congr_left
  intro p _
  by_cases hp : p.1 = i <;> simp [hp]

theorem map_val_mapNode {h : List (Nat × Node T)} {i : Nat}
    {f : Node T → Node T} (hf : ∀ n, (f n).t = n.t) :
    (mapNode i f h).map (fun p => p.2.t) = h.map (fun p => p.2.t) := by
  simp only [mapNode, List.map_map]
  apply List.map_congr_left
  intro p _
  by_cases hp : p.1 = i <;> simp [hp, hf]

theorem blockMove_insOf {s : Toposort T} {li : Nat} (j : Nat) :
    insOf (blockMove li s) j = insOf s j := by
  unfold blockMove
  split
  · exact insOf_of_heap_eq rfl j
  · rfl

theorem blockMove_outsOf {s : Toposort T} {li : Nat} (j : Nat) :
    outsOf (blockMove li s) j = outsOf s j := by
  unfold blockMove
  split
  · exact outsOf_of_heap_eq rfl j
  · rfl

theorem blockMove_heap {s : Toposort T} {li : Nat} :
    (blockMove li s).heap = s.heap := by
  unfold blockMove
  split <;> rfl

theorem blockMove_waitings {s : Toposort T} {li : Nat} :
    (blockMove li s).waitings = s.waitings := by
  unfold blockMove
  split <;> rfl

theorem blockMove_planneds {s : Toposort T} {li : Nat} :
    (blockMove li s).planneds = s.planneds := by
  unfold blockMove
  split <;> rfl

theorem blockMove_nxt {s : Toposort T} {li : Nat} :
    (blockMove li s).nxt = s.nxt := by
  unfold blockMove
  split <;> rfl

theorem blockMove_pendings_mem {s : Toposort T} {li : Nat} (x : Nat) :
    (x ∈ (blockMove li s).pendings ↔
      x ∈ s.pendings ∧ ¬(x = li ∧ insOf s li = [] ∧ li ∉ s.waitings)) := by
  unfold blockMove
  split
  · rename_i hc
    simp only [mem_serase]
    constructor
    · rintro ⟨hx, hne⟩
      exact ⟨hx, fun hcc => hne hcc.1⟩
    · rintro ⟨hx, hne⟩
      exact ⟨hx, fun hcc => hne ⟨hcc, hc.1, hc.2⟩⟩
  · rename_i hc
    constructor
    · intro hx
      refine ⟨hx, ?_⟩
      rintro ⟨rfl, h1, h2⟩
      exact hc ⟨h1, h2⟩
    · exact And.left

theorem blockMove_blockeds_mem {s : Toposort T} {li : Nat} (x : Nat) :
    (x ∈ (blockMove li s).blockeds ↔
      x ∈ s.blockeds ∨ (x = li ∧ insOf s li = [] ∧ li ∉ s.waitings)) := by
  unfold blockMove
  split
  · rename_i hc
    simp only [mem_sinsert]
    constructor
    · rintro (rfl | hx)
      · exact Or.inr ⟨rfl, hc.1, hc.2⟩
      · exact Or.inl hx
    · rintro (hx | ⟨rfl, _, _⟩)
      · exact Or.inr hx
      · exact Or.inl rfl
  · rename_i hc
    constructor
    · exact Or.inl
    · rintro (hx | ⟨rfl, h1, h2⟩)
      · exact hx
      · exact absurd ⟨h1, h2⟩ hc

theorem addEdge_insOf {s1 : Toposort T} {li ri : Nat}
    (hli : (nodeOf s1 li).isSome) (j : Nat) :
    insOf (addEdge li ri s1) j =
      if j = li then sinsert ri (insOf s1 j) else insOf s1 j := by
  obtain ⟨n, hn⟩ := Option.isSome_iff_exists.mp hli
  simp only [nodeOf] at hn
  simp only [addEdge, insOf, nodeOf, nodeOfL_mapNode]
  by_cases hjl : j = li
  · rw [hjl]
    by_cases hlr : li = ri
    · rw [hlr] at hn ⊢
      simp [hn]
    · simp [hlr, hn]
  · by_cases hjr : j = ri
    · rw [hjr]
      have hrl : ri ≠ li := fun hc => hjl (hjr.trans hc)
      simp only [if_pos rfl, if_neg hrl]
      cases hm : nodeOfL s1.heap ri <;> simp
    · simp [hjl, hjr]

theorem addEdge_outsOf {s1 : Toposort T} {li ri : Nat}
    (hri : (nodeOf s1 ri).isSome) (j : Nat) :
    outsOf (addEdge li ri s1) j =
      if j = ri then sinsert li (outsOf s1 j) else outsOf s1 j := by
  obtain ⟨n, hn⟩ := Option.isSome_iff_exists.mp hri
  simp only [nodeOf] at hn
  simp only [addEdge, outsOf, nodeOf, nodeOfL_mapNode]
  by_cases hjr : j = ri
  · rw [hjr]
    by_cases hrl : ri = li
    · rw [hrl] at hn ⊢
      simp [hn]
    · simp [hrl, hn]
  · by_cases hjl : j = li
    · rw [hjl]
      have hlr : li ≠ ri := fun hc => hjr (hjl.trans hc)
      simp only [if_neg hlr, if_pos rfl]
      cases hm : nodeOfL s1.heap li <;> simp
    · simp [hjl, hjr]

theorem addEdge_pendings {s1 : Toposort T} {li ri : Nat} :
    (addEdge li ri s1).pendings = s1.pendings := rfl

theorem addEdge_blockeds {s1 : Toposort T} {li ri : Nat} :
    (addEdge li ri s1).blockeds = s1.blockeds := rfl

theorem addEdge_waitings {s1 : Toposort T} {li ri : Nat} :
    (addEdge li ri s1).waitings = s1.waitings := rfl

theorem addEdge_planneds {s1 : Toposort T} {li ri : Nat} :
    (addEdge li ri s1).planneds = s1.planneds := rfl

theorem addEdge_nxt {s1 : Toposort T} {li ri : Nat} :
    (addEdge li ri s1).nxt = s1.nxt := rfl

theorem addEdge_liveIds {s1 : Toposort T} {li ri : Nat} :
    liveIds (addEdge li ri s1) = liveIds s1 := by
  simp only [addEdge, liveIds, map_fst_mapNode]

theorem addEdge_heapValues {s1 : Toposort T} {li ri : Nat} :
    heapValues (addEdge li ri s1) = heapValues s1 := by
  calc heapValues (addEdge li ri s1)
      = (mapNode ri (fun n => { n with outs := sinsert li n.outs })
          (mapNode li (fun n => { n with ins := sinsert ri n.ins })
            s1.heap)).map (fun p => p.2.t) := rfl
    _ = (mapNode li (fun n => { n with ins := sinsert ri n.ins })
          s1.heap).map (fun p => p.2.t) := by
        apply map_val_mapNode
        intro n
        rfl
    _ = s1.heap.map (fun p => p.2.t) := by
        apply map_val_mapNode
        intro n
        rfl
    _ = heapValues s1 := rfl

theorem delEdge_insOf {s : Toposort T} {li ri : Nat} (j : Nat) :
    insOf (delEdge li ri s) j =
      if j = li then serase ri (insOf s j) else insOf s j := by
  simp only [delEdge, insOf, nodeOf, nodeOfL_mapNode]
  by_cases hjl : j = li
  · subst hjl
    by_cases hjr : j = ri
    · subst hjr
      simp only [if_pos rfl]
      cases hm : nodeOfL s.heap j <;> simp [serase]
    · simp only [if_neg hjr, if_pos rfl]
      cases hm : nodeOfL s.heap j <;> simp [serase]
  · by_cases hjr : j = ri
    · subst hjr
      simp only [if_pos rfl, if_neg hjl]
      cases hm : nodeOfL s.heap j <;> simp
    · simp [hjl, hjr]

theorem delEdge_outsOf {s : Toposort T} {li ri : Nat} (j : Nat) :
    outsOf (delEdge li ri s) j =
      if j = ri then serase li (outsOf s j) else outsOf s j := by
  simp only [delEdge, outsOf, nodeOf, nodeOfL_mapNode]
  by_cases hjr : j = ri
  · subst hjr
    by_cases hjl : j = li
    · subst hjl
      simp only [if_pos rfl]
      cases hm : nodeOfL s.heap j <;> simp [serase]
    · simp only [if_pos rfl, if_neg hjl]
      cases hm : nodeOfL s.heap j <;> simp [serase]
  · by_cases hjl : j = li
    · subst hjl
      simp only [if_neg hjr, if_pos rfl]
      cases hm : nodeOfL s.heap j <;> simp
    · simp [hjl, hjr]

theorem delEdge_pendings {s : Toposort T} {li ri : Nat} :
    (delEdge li ri s).pendings = s.pendings := rfl

theorem delEdge_blockeds {s : Toposort T} {li ri : Nat} :
    (delEdge li ri s).blockeds = s.blockeds := rfl

theorem delEdge_waitings {s : Toposort T} {li ri : Nat} :
    (delEdge li ri s).waitings = s.waitings := rfl

theorem delEdge_planneds {s : Toposort T} {li ri : Nat} :
    (delEdge li ri s).planneds = s.planneds := rfl

theorem delEdge_nxt {s : Toposort T} {li ri : Nat} :
    (delEdge li ri s).nxt = s.nxt := rfl

theorem delEdge_liveIds {s : Toposort T} {li ri : Nat} :
    liveIds (delEdge li ri s) = liveIds s := by
  simp only [delEdge, liveIds, map_fst_mapNode]

theorem delEdge_heapValues {s : Toposort T} {li ri : Nat} :
    heapValues (delEdge li ri s) = heapValues s := by
  calc heapValues (delEdge li ri s)
      = (mapNode ri (fun n => { n with outs := serase li n.outs })
          (mapNode li (fun n => { n with ins := serase ri n.ins })
            s.heap)).map (fun p => p.2.t) := rfl
    _ = (mapNode li (fun n => { n with ins := serase ri n.ins })
          s.heap).map (fun p => p.2.t) := by
        apply map_val_mapNode
        intro n
        rfl
    _ = s.heap.map (fun p => p.2.t) := by
        apply map_val_mapNode
        intro n
        rfl
    _ = heapValues s := rfl

theorem unblockMove_eq_releaseStepMove {s1 : Toposort T} {li : Nat} :
    unblockMove li s1 = releaseStepMove li s1 := rfl

theorem wakeMove_waitings {s1 : Toposort T} {i : Nat} :
    (wakeMove i s1).waitings = s1.waitings := by
  unfold wakeMove
  split <;> rfl

theorem wakeMove_planneds {s1 : Toposort T} {i : Nat} :
    (wakeMove i s1).planneds = s1.planneds := by
  unfold wakeMove
  split <;> rfl

theorem wakeMove_heap {s1 : Toposort T} {i : Nat} :
    (wakeMove i s1).heap = s1.heap := by
  unfold wakeMove
  split <;> rfl

theorem wakeMove_nxt {s1 : Toposort T} {i : Nat} :
    (wakeMove i s1).nxt = s1.nxt := by
  unfold wakeMove
  split <;> rfl

theorem wakeMove_pendings_mem {s1 : Toposort T} {i : Nat} (x : Nat) :
    (x ∈ (wakeMove i s1).pendings ↔
      x ∈ s1.pendings ∨ (x = i ∧ insOf s1 i = [])) := by
  unfold wakeMove
  split
  · rename_i hc
    simp only [mem_sinsert]
    constructor
    · rintro (rfl | hx)
      · exact Or.inr ⟨rfl, hc⟩
      · exact Or.inl hx
    · rintro (hx | ⟨rfl, _⟩)
      · exact Or.inr hx
      · exact Or.inl rfl
  · rename_i hc
    constructor
    · exact Or.inl
    · rintro (hx | ⟨rfl, h1⟩)
      · exact hx
      · exact absurd h1 hc

theorem wakeMove_blockeds_mem {s1 : Toposort T} {i : Nat} (x : Nat) :
    (x ∈ (wakeMove i s1).blockeds ↔
      x ∈ s1.blockeds ∨ (x = i ∧ insOf s1 i ≠ [])) := by
  unfold wakeMove
  split
  · rename_i hc
    constructor
    · exact Or.inl
    · rintro (hx | ⟨rfl, h1⟩)
      · exact hx
      · exact absurd hc h1
  · rename_i hc
    simp only [mem_sinsert]
    constructor
    · rintro (rfl | hx)
      · exact Or.inr ⟨rfl, hc⟩
      · exact Or.inl hx
    · rintro (hx | ⟨rfl, _⟩)
      · exact Or.inr hx
      · exact Or.inl rfl

theorem attach_eq {s : Toposort T} {lhs rhs : T} {li ri : Nat}
    (hl : heapFind s lhs = some li) (hr : heapFind s rhs = some ri) :
    attach lhs rhs s = addEdge li ri (blockMove li s) := by
  simp only [attach, hl, hr]

theorem attach_insOf {s : Toposort T} {lhs rhs : T} {li ri : Nat}
    (hl : heapFind s lhs = some li) (hr : heapFind s rhs = some ri) (j : Nat) :
    insOf (attach lhs rhs s) j =
      if j = li then sinsert ri (insOf s j) else insOf s j := by
  rw [attach_eq hl hr]
  have hli : (nodeOf (blockMove li s) li).isSome := by
    obtain ⟨n, hn⟩ := nodeOf_isSome_of_find hl
    simp only [nodeOf, blockMove_heap]
    simp only [nodeOf] at hn
    simp [hn]
  rw [addEdge_insOf hli, blockMove_insOf]

theorem attach_outsOf {s : Toposort T} {lhs rhs : T} {li ri : Nat}
    (hl : heapFind s lhs = some li) (hr : heapFind s rhs = some ri) (j : Nat) :
    outsOf (attach lhs rhs s) j =
      if j = ri then sinsert li (outsOf s j) else outsOf s j := by
  rw [attach_eq hl hr]
  have hri : (nodeOf (blockMove li s) ri).isSome := by
    obtain ⟨n, hn⟩ := nodeOf_isSome_of_find hr
    simp only [nodeOf, blockMove_heap]
    simp only [nodeOf] at hn
    simp [hn]
  rw [addEdge_outsOf hri, blockMove_outsOf]

theorem attach_waitings {s : Toposort T} {lhs rhs : T} {li ri : Nat}
    (hl : heapFind s lhs = some li) (hr : heapFind s rhs = some ri) :
    (attach lhs rhs s).waitings = s.waitings := by
  rw [attach_eq hl hr, addEdge_waitings, blockMove_waitings]

theorem attach_planneds {s : Toposort T} {lhs rhs : T} {li ri : Nat}
    (hl : heapFind s lhs = some li) (hr : heapFind s rhs = some ri) :
    (attach lhs rhs s).planneds = s.planneds := by
  rw [attach_eq hl hr, addEdge_planneds, blockMove_planneds]

theorem attach_nxt {s : Toposort T} {lhs rhs : T} {li ri : Nat}
    (hl : heapFind s lhs = some li) (hr : heapFind s rhs = some ri) :
    (attach lhs rhs s).nxt = s.nxt := by
  rw [attach_eq hl hr, addEdge_nxt, blockMove_nxt]

theorem attach_liveIds {s : Toposort T} {lhs rhs : T} {li ri : Nat}
    (hl : heapFind s lhs = some li) (hr : heapFind s rhs = some ri) :
    liveIds (attach lhs rhs s) = liveIds s := by
  rw [attach_eq hl hr, addEdge_liveIds]
  simp [liveIds, blockMove_heap]

theorem attach_heapValues {s : Toposort T} {lhs rhs : T} {li ri : Nat}
    (hl : heapFind s lhs = some li) (hr : heapFind s rhs = some ri) :
    heapValues (attach lhs rhs s) = heapValues s := by
  rw [attach_eq hl hr, addEdge_heapValues]
  simp [heapValues, blockMove_heap]

theorem attach_pendings_mem {s : Toposort T} {lhs rhs : T} {li ri : Nat}
    (hl : heapFind s lhs = some li) (hr : heapFind s rhs = some ri) (x : Nat) :
    (x ∈ (attach lhs rhs s).pendings ↔
      x ∈ s.pendings ∧ ¬(x = li ∧ insOf s li = [] ∧ li ∉ s.waitings)) := by
  rw [attach_eq hl hr]
  rw [show (addEdge li ri (blockMove li s)).pendings =
    (blockMove li s).pendings from rfl]
  exact blockMove_pendings_mem x

theorem attach_blockeds_mem {s : Toposort T} {lhs rhs : T} {li ri : Nat}
    (hl : heapFind s lhs = some li) (hr : heapFind s rhs = some ri) (x : Nat) :
    (x ∈ (attach lhs rhs s).blockeds ↔
      x ∈ s.blockeds ∨ (x = li ∧ insOf s li = [] ∧ li ∉ s.waitings)) := by
  rw [attach_eq hl hr]
  rw [show (addEdge li ri (blockMove li s)).blockeds =
    (blockMove li s).blockeds from rfl]
  exact blockMove_blockeds_mem x

theorem detach_eq {s : Toposort T} {lhs rhs : T} {li ri : Nat}
    (hl : heapFind s lhs = some li) (hr : heapFind s rhs = some ri) :
    detach lhs rhs s = unblockMove li (delEdge li ri s) := by
  simp only [detach, hl, hr]

theorem detach_insOf {s : Toposort T} {lhs rhs : T} {li ri : Nat}
    (hl : heapFind s lhs = some li) (hr : heapFind s rhs = some ri) (j : Nat) :
    insOf (detach lhs rhs s) j =
      if j = li then serase ri (insOf s j) else insOf s j := by
  rw [detach_eq hl hr, unblockMove_eq_releaseStepMove, releaseStepMove_insOf,
    delEdge_insOf]

theorem detach_outsOf {s : Toposort T} {lhs rhs : T} {li ri : Nat}
    (hl : heapFind s lhs = some li) (hr : heapFind s rhs = some ri) (j : Nat) :
    outsOf (detach lhs rhs s) j =
      if j = ri then serase li (outsOf s j) else outsOf s j := by
  rw [detach_eq hl hr, unblockMove_eq_releaseStepMove, releaseStepMove_outsOf,
    delEdge_outsOf]

theorem detach_waitings {s : Toposort T} {lhs rhs : T} {li ri : Nat}
    (hl : heapFind s lhs = some li) (hr : heapFind s rhs = some ri) :
    (detach lhs rhs s).waitings = s.waitings := by
  rw [detach_eq hl hr, unblockMove_eq_releaseStepMove, releaseStepMove_waitings,
    delEdge_waitings]

theorem detach_planneds {s : Toposort T} {lhs rhs : T} {li ri : Nat}
    (hl : heapFind s lhs = some li) (hr : heapFind s rhs = some ri) :
    (detach lhs rhs s).planneds = s.planneds := by
  rw [detach_eq hl hr, unblockMove_eq_releaseStepMove, releaseStepMove_planneds,
    delEdge_planneds]

theorem detach_nxt {s : Toposort T} {lhs rhs : T} {li ri : Nat}
    (hl : heapFind s lhs = some li) (hr : heapFind s rhs = some ri) :
    (detach lhs rhs s).nxt = s.nxt := by
  rw [detach_eq hl hr, unblockMove_eq_releaseStepMove, releaseStepMove_nxt,
    delEdge_nxt]

theorem detach_liveIds {s : Toposort T} {lhs rhs : T} {li ri : Nat}
    (hl : heapFind s lhs = some li) (hr : heapFind s rhs = some ri) :
    liveIds (detach lhs rhs s) = liveIds s := by
  rw [detach_eq hl hr, unblockMove_eq_releaseStepMove]
  have h1 : liveIds (releaseStepMove li (delEdge li ri s)) =
      liveIds (delEdge li ri s) := by
    simp [liveIds, releaseStepMove_heap]
  rw [h1, delEdge_liveIds]

theorem detach_heapValues {s : Toposort T} {lhs rhs : T} {li ri : Nat}
    (hl : heapFind s lhs = some li) (hr : heapFind s rhs = some ri) :
    heapValues (detach lhs rhs s) = heapValues s := by
  rw [detach_eq hl hr, unblockMove_eq_releaseStepMove]
  have h1 : heapValues (releaseStepMove li (delEdge li ri s)) =
      heapValues (delEdge li ri s) := by
    simp [heapValues, releaseStepMove_heap]
  rw [h1, delEdge_heapValues]

theorem detach_pendings_mem {s : Toposort T} {lhs rhs : T} {li ri : Nat}
    (hl : heapFind s lhs = some li) (hr : heapFind s rhs = some ri) (x : Nat) :
    (x ∈ (detach lhs rhs s).pendings ↔
      x ∈ s.pendings ∨
        (x = li ∧ serase ri (insOf s li) = [] ∧ li ∉ s.waitings)) := by
  rw [detach_eq hl hr, unblockMove_eq_releaseStepMove]
  rw [releaseStepMove_pendings_mem, delEdge_insOf, if_pos rfl,
    delEdge_waitings, delEdge_pendings]

theorem detach_blockeds_mem {s : Toposort T} {lhs rhs : T} {li ri : Nat}
    (hl : heapFind s lhs = some li) (hr : heapFind s rhs = some ri) (x : Nat) :
    (x ∈ (detach lhs rhs s).blockeds ↔
      x ∈ s.blockeds ∧
        ¬(x = li ∧ serase ri (insOf s li) = [] ∧ li ∉ s.waitings)) := by
  rw [detach_eq hl hr, unblockMove_eq_releaseStepMove]
  rw [releaseStepMove_blockeds_mem, delEdge_insOf, if_pos rfl,
    delEdge_waitings, delEdge_blockeds]

theorem wake_eq {s : Toposort T} {t : T} {i : Nat}
    (hf : heapFind s t = some i) :
    wake t s = wakeMove i { s with waitings := serase i s.waitings } := by
  simp only [wake, hf]

theorem wake_waitings {s : Toposort T} {t : T} {i : Nat}
    (hf : heapFind s t = some i) :
    (wake t s).waitings = serase i s.waitings := by
  rw [wake_eq hf, wakeMove_waitings]

theorem wake_planneds {s : Toposort T} {t : T} {i : Nat}
    (hf : heapFind s t = some i) :
    (wake t s).planneds = s.planneds := by
  rw [wake_eq hf, wakeMove_planneds]

theorem wake_heap {s : Toposort T} {t : T} {i : Nat}
    (hf : heapFind s t = some i) :
    (wake t s).heap = s.heap := by
  rw [wake_eq hf, wakeMove_heap]

theorem wake_nxt {s : Toposort T} {t : T} {i : Nat}
    (hf : heapFind s t = some i) :
    (wake t s).nxt = s.nxt := by
  rw [wake_eq hf, wakeMove_nxt]

theorem wake_insOf {s : Toposort T} {t : T} {i : Nat}
    (hf : heapFind s t = some i) (j : Nat) :
    insOf (wake t s) j = insOf s j :=
  insOf_of_heap_eq (wake_heap hf) j

theorem wake_outsOf {s : Toposort T} {t : T} {i : Nat}
    (hf : heapFind s t = some i) (j : Nat) :
    outsOf (wake t s) j = outsOf s j :=
  outsOf_of_heap_eq (wake_heap hf) j

theorem wake_pendings_mem {s : Toposort T} {t : T} {i : Nat}
    (hf : heapFind s t = some i) (x : Nat) :
    (x ∈ (wake t s).pendings ↔
      x ∈ s.pendings ∨ (x = i ∧ insOf s i = [])) := by
  rw [wake_eq hf, wakeMove_pendings_mem]
  rw [show insOf { s with waitings := serase i s.waitings } i = insOf s i
    from insOf_of_heap_eq rfl i]

theorem wake_blockeds_mem {s : Toposort T} {t : T} {i : Nat}
    (hf : heapFind s t = some i) (x : Nat) :
    (x ∈ (wake t s).blockeds ↔
      x ∈ s.blockeds ∨ (x = i ∧ insOf s i ≠ [])) := by
  rw [wake_eq hf, wakeMove_blockeds_mem]
  rw [show insOf { s with waitings := serase i s.waitings } i = insOf s i
    from insOf_of_heap_eq rfl i]

theorem use_eq_planned {s : Toposort T} {t : T} {i : Nat}
    (hf : heapFind s t = some i) (hp : i ∈ s.planneds) :
    use t s = { s with planneds := serase i s.planneds,
                       pendings := sinsert i s.pendings } := by
  simp only [use, hf, if_pos hp]

theorem use_eq_not_planned {s : Toposort T} {t : T} {i : Nat}
    (hf : heapFind s t = some i) (hp : i ∉ s.planneds) :
    use t s = s := by
  simp only [use, hf, if_neg hp]

theorem halt_eq {s : Toposort T} {t : T} {i : Nat}
    (hf : heapFind s t = some i) :
    halt t s = { s with waitings := sinsert i s.waitings,
                        blockeds := serase i s.blockeds,
                        pendings := serase i s.pendings } := by
  simp only [halt, hf]

theorem sinsert_ne_nil {y : Nat} {l : List Nat} : sinsert y l ≠ [] := by
  intro hc
  have : y ∈ sinsert y l := mem_sinsert.mpr (Or.inl rfl)
  rw [hc] at this
  exact List.not_mem_nil y this

theorem mem_sinsert_self {y : Nat} {l : List Nat} : y ∈ sinsert y l :=
  mem_sinsert.mpr (Or.inl rfl)

theorem mem_sinsert_of_mem {x y : Nat} {l : List Nat} (h : x ∈ l) :
    x ∈ sinsert y l :=
  mem_sinsert.mpr (Or.inr h)

theorem eq_of_serase_eq_nil {i x : Nat} {l : List Nat}
    (h : serase i l = []) (hx : x ∈ l) : x = i := by
  by_contra hne
  have : x ∈ serase i l := mem_serase.mpr ⟨hx, hne⟩
  rw [h] at this
  exact List.not_mem_nil x this

/-! ### The partition invariant

The conjunction below is the inductive invariant used for the partition
claims: partitions reference only live nodes, every live node is in at
least one partition and in no two partitions at once, a live node outside
Waiting/Planned is pending exactly when its incoming set is empty, Planned
nodes have no incoming edges, edges reference live nodes, incoming edges
are mirrored by outgoing edges, and outgoing edges of non-Planned nodes are
mirrored by incoming edges. -/

def Inv (s : Toposort T) : Prop :=
  (liveIds s).Nodup ∧
  (∀ i ∈ liveIds s, i < s.nxt) ∧
  (∀ i ∈ s.pendings, i ∈ liveIds s) ∧
  (∀ i ∈ s.blockeds, i ∈ liveIds s) ∧
  (∀ i ∈ s.waitings, i ∈ liveIds s) ∧
  (∀ i ∈ s.planneds, i ∈ liveIds s) ∧
  (∀ i ∈ liveIds s,
    i ∈ s.pendings ∨ i ∈ s.blockeds ∨ i ∈ s.waitings ∨ i ∈ s.planneds) ∧
  (∀ i ∈ liveIds s,
    (i ∈ s.pendings → i ∉ s.blockeds ∧ i ∉ s.waitings ∧ i ∉ s.planneds) ∧
    (i ∈ s.blockeds → i ∉ s.waitings ∧ i ∉ s.planneds) ∧
    (i ∈ s.waitings → i ∉ s.planneds)) ∧
  (∀ i ∈ liveIds s, i ∉ s.waitings → i ∉ s.planneds →
    (i ∈ s.pendings ↔ insOf s i = [])) ∧
  (∀ i ∈ liveIds s, i ∈ s.planneds → insOf s i = []) ∧
  (∀ i ∈ liveIds s, ∀ j ∈ insOf s i, j ∈ liveIds s) ∧
  (∀ i ∈ liveIds s, ∀ j ∈ outsOf s i, j ∈ liveIds s) ∧
  (∀ i ∈ liveIds s, ∀ j ∈ insOf s i, i ∈ outsOf s j) ∧
  (∀ i ∈ liveIds s, i ∉ s.planneds → ∀ j ∈ outsOf s i, i ∈ insOf s j)

theorem inv_init : Inv (init : Toposort T) := by
  refine ⟨?_, ?_, ?_, ?_, ?_, ?_, ?_, ?_, ?_, ?_, ?_, ?_, ?_, ?_⟩ <;>
    simp [init, liveIds]

theorem inv_clear {s : Toposort T} : Inv (clear s) := by
  refine ⟨?_, ?_, ?_, ?_, ?_, ?_, ?_, ?_, ?_, ?_, ?_, ?_, ?_, ?_⟩ <;>
    simp [clear, liveIds]

theorem inv_attach {s : Toposort T} {lhs rhs : T} {li ri : Nat}
    (hl : heapFind s lhs = some li) (hr : heapFind s rhs = some ri)
    (hnp : li ∉ s.planneds) (hI : Inv s) : Inv (attach lhs rhs s) := by
  obtain ⟨h1, h2, h3, h4, h5, h6, h7, h8, h9, h10, h11, h12, h13, h14⟩ := hI
  have hlive := attach_liveIds hl hr
  have hwt := attach_waitings hl hr
  have hpl := attach_planneds hl hr
  have hnx := attach_nxt hl hr
  have hpm := attach_pendings_mem hl hr
  have hbm := attach_blockeds_mem hl hr
  have hio := attach_insOf hl hr
  have hoo := attach_outsOf hl hr
  have hliMem : li ∈ liveIds s := heapFind_mem_live hl
  have hriMem : ri ∈ liveIds s := heapFind_mem_live hr
  refine ⟨?_, ?_, ?_, ?_, ?_, ?_, ?_, ?_, ?_, ?_, ?_, ?_, ?_, ?_⟩
  · rw [hlive]
    exact h1
  · rw [hlive, hnx]
    exact h2
  · intro i hi
    rw [hlive]
    exact h3 i ((hpm i).mp hi).1
  · intro i hi
    rw [hlive]
    rcases (hbm i).mp hi with hb | ⟨rfl, _, _⟩
    · exact h4 i hb
    · exact hliMem
  · intro i hi
    rw [hwt] at hi
    rw [hlive]
    exact h5 i hi
  · intro i hi
    rw [hpl] at hi
    rw [hlive]
    exact h6 i hi
  · intro i hi
    rw [hlive] at hi
    rw [hwt, hpl]
    rcases h7 i hi with hp | hb | hw | hq
    · by_cases hc : i = li ∧ insOf s li = [] ∧ li ∉ s.waitings
      · exact Or.inr (Or.inl ((hbm i).mpr (Or.inr hc)))
      · exact Or.inl ((hpm i).mpr ⟨hp, hc⟩)
    · exact Or.inr (Or.inl ((hbm i).mpr (Or.inl hb)))
    · exact Or.inr (Or.inr (Or.inl hw))
    · exact Or.inr (Or.inr (Or.inr hq))
  · intro i hi
    rw [hlive] at hi
    rw [hwt, hpl]
    refine ⟨?_, ?_, ?_⟩
    · intro hp
      obtain ⟨hps, hnc⟩ := (hpm i).mp hp
      obtain ⟨hnb, hnw, hnq⟩ := (h8 i hi).1 hps
      refine ⟨?_, hnw, hnq⟩
      intro hb
      rcases (hbm i).mp hb with hb' | hc
      · exact hnb hb'
      · exact hnc hc
    · intro hb
      rcases (hbm i).mp hb with hb' | ⟨rfl, _, hw⟩
      · exact (h8 i hi).2.1 hb'
      · exact ⟨hw, hnp⟩
    · exact (h8 i hi).2.2
  · intro i hi hiw hip
    rw [hlive] at hi
    rw [hwt] at hiw
    rw [hpl] at hip
    rw [hpm i, hio i]
    by_cases hil : i = li
    · subst hil
      rw [if_pos rfl]
      constructor
      · rintro ⟨hp, hnc⟩
        have hins : insOf s i = [] := (h9 i hi hiw hip).mp hp
        exact absurd ⟨rfl, hins, hiw⟩ hnc
      · intro hins
        exact absurd hins sinsert_ne_nil
    · rw [if_neg hil]
      constructor
      · rintro ⟨hp, _⟩
        exact (h9 i hi hiw hip).mp hp
      · intro hins
        refine ⟨(h9 i hi hiw hip).mpr hins, ?_⟩
        rintro ⟨hcc, _, _⟩
        exact hil hcc
  · intro i hi hip
    rw [hlive] at hi
    rw [hpl] at hip
    rw [hio i]
    have hil : i ≠ li := by
      rintro rfl
      exact hnp hip
    rw [if_neg hil]
    exact h10 i hi hip
  · intro i hi j hj
    rw [hlive] at hi ⊢
    rw [hio i] at hj
    by_cases hil : i = li
    · rw [if_pos hil] at hj
      rcases mem_sinsert.mp hj with rfl | hj'
      · exact hriMem
      · exact h11 i hi j hj'
    · rw [if_neg hil] at hj
      exact h11 i hi j hj
  · intro i hi j hj
    rw [hlive] at hi ⊢
    rw [hoo i] at hj
    by_cases hir : i = ri
    · rw [if_pos hir] at hj
      rcases mem_sinsert.mp hj with rfl | hj'
      · exact hliMem
      · exact h12 i hi j hj'
    · rw [if_neg hir] at hj
      exact h12 i hi j hj
  · intro i hi j hj
    rw [hlive] at hi
    rw [hio i] at hj
    rw [hoo j]
    by_cases hil : i = li
    · subst hil
      rw [if_pos rfl] at hj
      rcases mem_sinsert.mp hj with rfl | hj'
      · rw [if_pos rfl]
        exact mem_sinsert_self
      · have := h13 i hi j hj'
        by_cases hjr : j = ri
        · rw [if_pos hjr]
          exact mem_sinsert_of_mem this
        · rw [if_neg hjr]
          exact this
    · rw [if_neg hil] at hj
      have := h13 i hi j hj
      by_cases hjr : j = ri
      · rw [if_pos hjr]
        exact mem_sinsert_of_mem this
      · rw [if_neg hjr]
        exact this
  · intro i hi hip j hj
    rw [hlive] at hi
    rw [hpl] at hip
    rw [hoo i] at hj
    rw [hio j]
    by_cases hir : i = ri
    · subst hir
      rw [if_pos rfl] at hj
      rcases mem_sinsert.mp hj with rfl | hj'
      · rw [if_pos rfl]
        exact mem_sinsert_self
      · have := h14 i hi hip j hj'
        by_cases hjl : j = li
        · rw [if_pos hjl]
          exact mem_sinsert_of_mem this
        · rw [if_neg hjl]
          exact this
    · rw [if_neg hir] at hj
      have := h14 i hi hip j hj
      by_cases hjl : j = li
      · rw [if_pos hjl]
        exact mem_sinsert_of_mem this
      · rw [if_neg hjl]
        exact this

theorem inv_detach {s : Toposort T} {lhs rhs : T} {li ri : Nat}
    (hl : heapFind s lhs = some li) (hr : heapFind s rhs = some ri)
    (hnp : li ∉ s.planneds) (hI : Inv s) : Inv (detach lhs rhs s) := by
  obtain ⟨h1, h2, h3, h4, h5, h6, h7, h8, h9, h10, h11, h12, h13, h14⟩ := hI
  have hlive := detach_liveIds hl hr
  have hwt := detach_waitings hl hr
  have hpl := detach_planneds hl hr
  have hnx := detach_nxt hl hr
  have hpm := detach_pendings_mem hl hr
  have hbm := detach_blockeds_mem hl hr
  have hio := detach_insOf hl hr
  have hoo := detach_outsOf hl hr
  have hliMem : li ∈ liveIds s := heapFind_mem_live hl
  refine ⟨?_, ?_, ?_, ?_, ?_, ?_, ?_, ?_, ?_, ?_, ?_, ?_, ?_, ?_⟩
  · rw [hlive]
    exact h1
  · rw [hlive, hnx]
    exact h2
  · intro i hi
    rw [hlive]
    rcases (hpm i).mp hi with hp | ⟨rfl, _, _⟩
    · exact h3 i hp
    · exact hliMem
  · intro i hi
    rw [hlive]
    exact h4 i ((hbm i).mp hi).1
  · intro i hi
    rw [hwt] at hi
    rw [hlive]
    exact h5 i hi
  · intro i hi
    rw [hpl] at hi
    rw [hlive]
    exact h6 i hi
  · intro i hi
    rw [hlive] at hi
    rw [hwt, hpl]
    rcases h7 i hi with hp | hb | hw | hq
    · exact Or.inl ((hpm i).mpr (Or.inl hp))
    · by_cases hc : i = li ∧ serase ri (insOf s li) = [] ∧ li ∉ s.waitings
      · exact Or.inl ((hpm i).mpr (Or.inr hc))
      · exact Or.inr (Or.inl ((hbm i).mpr ⟨hb, hc⟩))
    · exact Or.inr (Or.inr (Or.inl hw))
    · exact Or.inr (Or.inr (Or.inr hq))
  · intro i hi
    rw [hlive] at hi
    rw [hwt, hpl]
    refine ⟨?_, ?_, ?_⟩
    · intro hp
      rcases (hpm i).mp hp with hp' | ⟨rfl, hse, hwli⟩
      · obtain ⟨hnb, hnw, hnq⟩ := (h8 i hi).1 hp'
        refine ⟨fun hb => hnb ((hbm i).mp hb).1, hnw, hnq⟩
      · refine ⟨?_, hwli, hnp⟩
        intro hb
        exact ((hbm i).mp hb).2 ⟨rfl, hse, hwli⟩
    · intro hb
      have hb' := ((hbm i).mp hb).1
      exact (h8 i hi).2.1 hb'
    · exact (h8 i hi).2.2
  · intro i hi hiw hip
    rw [hlive] at hi
    rw [hwt] at hiw
    rw [hpl] at hip
    rw [hpm i, hio i]
    by_cases hil : i = li
    · subst hil
      rw [if_pos rfl]
      constructor
      · rintro (hp | ⟨_, hse, _⟩)
        · have hins : insOf s i = [] := (h9 i hi hiw hip).mp hp
          rw [hins]
          rfl
        · exact hse
      · intro hse
        exact Or.inr ⟨rfl, hse, hiw⟩
    · rw [if_neg hil]
      constructor
      · rintro (hp | ⟨hcc, _, _⟩)
        · exact (h9 i hi hiw hip).mp hp
        · exact absurd hcc hil
      · intro hins
        exact Or.inl ((h9 i hi hiw hip).mpr hins)
  · intro i hi hip
    rw [hlive] at hi
    rw [hpl] at hip
    rw [hio i]
    have hil : i ≠ li := by
      rintro rfl
      exact hnp hip
    rw [if_neg hil]
    exact h10 i hi hip
  · intro i hi j hj
    rw [hlive] at hi ⊢
    rw [hio i] at hj
    by_cases hil : i = li
    · rw [if_pos hil] at hj
      exact h11 i hi j (serase_subset hj)
    · rw [if_neg hil] at hj
      exact h11 i hi j hj
  · intro i hi j hj
    rw [hlive] at hi ⊢
    rw [hoo i] at hj
    by_cases hir : i = ri
    · rw [if_pos hir] at hj
      exact h12 i hi j (serase_subset hj)
    · rw [if_neg hir] at hj
      exact h12 i hi j hj
  · intro i hi j hj
    rw [hlive] at hi
    rw [hio i] at hj
    rw [hoo j]
    by_cases hil : i = li
    · subst hil
      rw [if_pos rfl] at hj
      obtain ⟨hj', hjr⟩ := mem_serase.mp hj
      rw [if_neg hjr]
      exact h13 i hi j hj'
    · rw [if_neg hil] at hj
      have hm := h13 i hi j hj
      by_cases hjr : j = ri
      · rw [if_pos hjr]
        exact mem_serase.mpr ⟨hm, hil⟩
      · rw [if_neg hjr]
        exact hm
  · intro i hi hip j hj
    rw [hlive] at hi
    rw [hpl] at hip
    rw [hoo i] at hj
    rw [hio j]
    by_cases hir : i = ri
    · subst hir
      rw [if_pos rfl] at hj
      obtain ⟨hj', hjl⟩ := mem_serase.mp hj
      rw [if_neg hjl]
      exact h14 i hi hip j hj'
    · rw [if_neg hir] at hj
      have hm := h14 i hi hip j hj
      by_cases hjl : j = li
      · rw [if_pos hjl]
        exact mem_serase.mpr ⟨hm, hir⟩
      · rw [if_neg hjl]
        exact hm

theorem inv_use {s : Toposort T} {t : T} {i : Nat}
    (hf : heapFind s t = some i) (hp : i ∈ s.planneds)
    (ho : outsOf s i = []) (hI : Inv s) : Inv (use t s) := by
  obtain ⟨h1, h2, h3, h4, h5, h6, h7, h8, h9, h10, h11, h12, h13, h14⟩ := hI
  have hiMem : i ∈ liveIds s := heapFind_mem_live hf
  have hins : insOf s i = [] := h10 i hiMem hp
  have hinp : i ∉ s.pendings := fun hc => ((h8 i hiMem).1 hc).2.2 hp
  have hinb : i ∉ s.blockeds := fun hc => ((h8 i hiMem).2.1 hc).2 hp
  have hinw : i ∉ s.waitings := fun hc => (h8 i hiMem).2.2 hc hp
  rw [use_eq_planned hf hp]
  refine ⟨h1, h2, ?_, h4, h5, ?_, ?_, ?_, ?_, ?_, h11, h12, h13, ?_⟩
  · intro x hx
    rcases mem_sinsert.mp hx with rfl | hx'
    · exact hiMem
    · exact h3 x hx'
  · intro x hx
    exact h6 x (serase_subset hx)
  · intro x hx
    rcases h7 x hx with hxp | hxb | hxw | hxq
    · exact Or.inl (mem_sinsert_of_mem hxp)
    · exact Or.inr (Or.inl hxb)
    · exact Or.inr (Or.inr (Or.inl hxw))
    · by_cases hxi : x = i
      · exact Or.inl (mem_sinsert.mpr (Or.inl hxi))
      · exact Or.inr (Or.inr (Or.inr (mem_serase.mpr ⟨hxq, hxi⟩)))
  · intro x hx
    refine ⟨?_, ?_, ?_⟩
    · intro hxp
      rcases mem_sinsert.mp hxp with rfl | hxp'
      · exact ⟨hinb, hinw, fun hc => (mem_serase.mp hc).2 rfl⟩
      · obtain ⟨hnb, hnw, hnq⟩ := (h8 x hx).1 hxp'
        exact ⟨hnb, hnw, fun hc => hnq (serase_subset hc)⟩
    · intro hxb
      obtain ⟨hnw, hnq⟩ := (h8 x hx).2.1 hxb
      exact ⟨hnw, fun hc => hnq (serase_subset hc)⟩
    · intro hxw
      exact fun hc => (h8 x hx).2.2 hxw (serase_subset hc)
  · intro x hx hxw hxq
    by_cases hxi : x = i
    · subst hxi
      constructor
      · intro _
        exact hins
      · intro _
        exact mem_sinsert_self
    · have hxq' : x ∉ s.planneds := fun hc => hxq (mem_serase.mpr ⟨hc, hxi⟩)
      constructor
      · intro hxp
        rcases mem_sinsert.mp hxp with rfl | hxp'
        · exact absurd rfl hxi
        · exact (h9 x hx hxw hxq').mp hxp'
      · intro hinsx
        exact mem_sinsert_of_mem ((h9 x hx hxw hxq').mpr hinsx)
  · intro x hx hxq
    exact h10 x hx (serase_subset hxq)
  · intro x hx hxq j hj
    have hj2 : j ∈ outsOf s x := hj
    show x ∈ insOf s j
    by_cases hxi : x = i
    · subst hxi
      rw [ho] at hj2
      exact absurd hj2 (List.not_mem_nil j)
    · by_cases hxpl : x ∈ s.planneds
      · exact absurd (mem_serase.mpr ⟨hxpl, hxi⟩) hxq
      · exact h14 x hx hxpl j hj2

theorem inv_halt {s : Toposort T} {t : T} {i : Nat}
    (hf : heapFind s t = some i) (hnp : i ∉ s.planneds) (hI : Inv s) :
    Inv (halt t s) := by
  obtain ⟨h1, h2, h3, h4, h5, h6, h7, h8, h9, h10, h11, h12, h13, h14⟩ := hI
  have hiMem : i ∈ liveIds s := heapFind_mem_live hf
  rw [halt_eq hf]
  refine ⟨h1, h2, ?_, ?_, ?_, h6, ?_, ?_, ?_, h10, h11, h12, h13, h14⟩
  · intro x hx
    exact h3 x (serase_subset hx)
  · intro x hx
    exact h4 x (serase_subset hx)
  · intro x hx
    rcases mem_sinsert.mp hx with rfl | hx'
    · exact hiMem
    · exact h5 x hx'
  · intro x hx
    by_cases hxi : x = i
    · exact Or.inr (Or.inr (Or.inl (mem_sinsert.mpr (Or.inl hxi))))
    · rcases h7 x hx with hxp | hxb | hxw | hxq
      · exact Or.inl (mem_serase.mpr ⟨hxp, hxi⟩)
      · exact Or.inr (Or.inl (mem_serase.mpr ⟨hxb, hxi⟩))
      · exact Or.inr (Or.inr (Or.inl (mem_sinsert_of_mem hxw)))
      · exact Or.inr (Or.inr (Or.inr hxq))
  · intro x hx
    refine ⟨?_, ?_, ?_⟩
    · intro hxp
      obtain ⟨hxp', hxi⟩ := mem_serase.mp hxp
      obtain ⟨hnb, hnw, hnq⟩ := (h8 x hx).1 hxp'
      refine ⟨fun hc => hnb (serase_subset hc), ?_, hnq⟩
      intro hc
      rcases mem_sinsert.mp hc with rfl | hc'
      · exact hxi rfl
      · exact hnw hc'
    · intro hxb
      obtain ⟨hxb', hxi⟩ := mem_serase.mp hxb
      obtain ⟨hnw, hnq⟩ := (h8 x hx).2.1 hxb'
      refine ⟨?_, hnq⟩
      intro hc
      rcases mem_sinsert.mp hc with rfl | hc'
      · exact hxi rfl
      · exact hnw hc'
    · intro hxw
      rcases mem_sinsert.mp hxw with rfl | hxw'
      · exact hnp
      · exact (h8 x hx).2.2 hxw'
  · intro x hx hxw hxq
    have hxi : x ≠ i := fun hc => hxw (mem_sinsert.mpr (Or.inl hc))
    have hxw' : x ∉ s.waitings := fun hc => hxw (mem_sinsert_of_mem hc)
    constructor
    · intro hxp
      exact (h9 x hx hxw' hxq).mp (serase_subset hxp)
    · intro hinsx
      exact mem_serase.mpr ⟨(h9 x hx hxw' hxq).mpr hinsx, hxi⟩

theorem inv_wake {s : Toposort T} {t : T} {i : Nat}
    (hf : heapFind s t = some i) (hw : i ∈ s.waitings) (hI : Inv s) :
    Inv (wake t s) := by
  obtain ⟨h1, h2, h3, h4, h5, h6, h7, h8, h9, h10, h11, h12, h13, h14⟩ := hI
  have hiMem : i ∈ liveIds s := heapFind_mem_live hf
  have hinq : i ∉ s.planneds := (h8 i hiMem).2.2 hw
  have hinp : i ∉ s.pendings := fun hc => ((h8 i hiMem).1 hc).2.1 hw
  have hinb : i ∉ s.blockeds := fun hc => ((h8 i hiMem).2.1 hc).1 hw
  have hlive : liveIds (wake t s) = liveIds s := by
    simp [liveIds, wake_heap hf]
  have hwt := wake_waitings hf
  have hpl := wake_planneds hf
  have hnx := wake_nxt hf
  have hpm := wake_pendings_mem hf
  have hbm := wake_blockeds_mem hf
  have hio := wake_insOf hf
  have hoo := wake_outsOf hf
  refine ⟨?_, ?_, ?_, ?_, ?_, ?_, ?_, ?_, ?_, ?_, ?_, ?_, ?_, ?_⟩
  · rw [hlive]
    exact h1
  · rw [hlive, hnx]
    exact h2
  · intro x hx
    rw [hlive]
    rcases (hpm x).mp hx with hx' | ⟨rfl, _⟩
    · exact h3 x hx'
    · exact hiMem
  · intro x hx
    rw [hlive]
    rcases (hbm x).mp hx with hx' | ⟨rfl, _⟩
    · exact h4 x hx'
    · exact hiMem
  · intro x hx
    rw [hwt] at hx
    rw [hlive]
    exact h5 x (serase_subset hx)
  · intro x hx
    rw [hpl] at hx
    rw [hlive]
    exact h6 x hx
  · intro x hx
    rw [hlive] at hx
    rw [hwt, hpl]
    by_cases hxi : x = i
    · subst hxi
      by_cases hins : insOf s x = []
      · exact Or.inl ((hpm x).mpr (Or.inr ⟨rfl, hins⟩))
      · exact Or.inr (Or.inl ((hbm x).mpr (Or.inr ⟨rfl, hins⟩)))
    · rcases h7 x hx with hxp | hxb | hxw | hxq
      · exact Or.inl ((hpm x).mpr (Or.inl hxp))
      · exact Or.inr (Or.inl ((hbm x).mpr (Or.inl hxb)))
      · exact Or.inr (Or.inr (Or.inl (mem_serase.mpr ⟨hxw, hxi⟩)))
      · exact Or.inr (Or.inr (Or.inr hxq))
  · intro x hx
    rw [hlive] at hx
    rw [hwt, hpl]
    refine ⟨?_, ?_, ?_⟩
    · intro hxp
      rcases (hpm x).mp hxp with hxp' | ⟨rfl, hins⟩
      · obtain ⟨hnb, hnw, hnq⟩ := (h8 x hx).1 hxp'
        have hxi : x ≠ i := fun hc => hinp (hc ▸ hxp')
        refine ⟨?_, fun hc => hnw (serase_subset hc), hnq⟩
        intro hb
        rcases (hbm x).mp hb with hb' | ⟨hxe, _⟩
        · exact hnb hb'
        · exact hxi hxe
      · refine ⟨?_, ?_, hinq⟩
        · intro hb
          rcases (hbm x).mp hb with hb' | ⟨_, hins'⟩
          · exact hinb hb'
          · exact hins' hins
        · intro hc
          exact (mem_serase.mp hc).2 rfl
    · intro hxb
      rcases (hbm x).mp hxb with hxb' | ⟨rfl, _⟩
      · obtain ⟨hnw, hnq⟩ := (h8 x hx).2.1 hxb'
        exact ⟨fun hc => hnw (serase_subset hc), hnq⟩
      · exact ⟨fun hc => (mem_serase.mp hc).2 rfl, hinq⟩
    · intro hxw
      exact (h8 x hx).2.2 (serase_subset hxw)
  · intro x hx hxw hxq
    rw [hlive] at hx
    rw [hwt] at hxw
    rw [hpl] at hxq
    rw [hpm x, hio x]
    by_cases hxi : x = i
    · subst hxi
      constructor
      · rintro (hxp | ⟨_, hins⟩)
        · exact absurd hxp hinp
        · exact hins
      · intro hins
        exact Or.inr ⟨rfl, hins⟩
    · have hxw' : x ∉ s.waitings := fun hc =>
        hxw (mem_serase.mpr ⟨hc, hxi⟩)
      constructor
      · rintro (hxp | ⟨hcc, _⟩)
        · exact (h9 x hx hxw' hxq).mp hxp
        · exact absurd hcc hxi
      · intro hins
        exact Or.inl ((h9 x hx hxw' hxq).mpr hins)
  · intro x hx hxq
    rw [hlive] at hx
    rw [hpl] at hxq
    rw [hio x]
    exact h10 x hx hxq
  · intro x hx j hj
    rw [hlive] at hx ⊢
    rw [hio x] at hj
    exact h11 x hx j hj
  · intro x hx j hj
    rw [hlive] at hx ⊢
    rw [hoo x] at hj
    exact h12 x hx j hj
  · intro x hx j hj
    rw [hlive] at hx
    rw [hio x] at hj
    rw [hoo j]
    exact h13 x hx j hj
  · intro x hx hxq j hj
    rw [hlive] at hx
    rw [hpl] at hxq
    rw [hoo x] at hj
    rw [hio j]
    exact h14 x hx hxq j hj

theorem hasValue_iff {s : Toposort T} {t : T} :
    hasValue s t = true ↔ t ∈ heapValues s := by
  simp only [hasValue, List.any_eq_true, beq_iff_eq, heapValues, List.mem_map]

theorem hasValue_eq_false {s : Toposort T} {t : T} (hv : t ∉ heapValues s) :
    hasValue s t = false := by
  rw [← Bool.not_eq_true, hasValue_iff]
  exact hv

theorem push_eq_fresh {s : Toposort T} {t : T} (hv : t ∉ heapValues s) :
    push t s = { s with nxt := s.nxt + 1,
                        pendings := sinsert s.nxt s.pendings,
                        heap := s.heap ++ [(s.nxt, ⟨t, [], []⟩)] } := by
  simp [push, hasValue_eq_false hv]

theorem plan_eq_fresh {s : Toposort T} {t : T} (hv : t ∉ heapValues s) :
    plan t s = { s with nxt := s.nxt + 1,
                        planneds := sinsert s.nxt s.planneds,
                        heap := s.heap ++ [(s.nxt, ⟨t, [], []⟩)] } := by
  simp [plan, hasValue_eq_false hv]

theorem insOf_append_new {s s' : Toposort T} {k : Nat} {t : T}
    (hh : s'.heap = s.heap ++ [(k, ⟨t, [], []⟩)]) (j : Nat) :
    insOf s' j = insOf s j := by
  simp only [insOf, nodeOf, hh, nodeOfL_append]
  cases hm : nodeOfL s.heap j
  · simp only [nodeOfL_cons, nodeOfL_nil]
    by_cases hj : k = j
    · simp [hj]
    · simp [hj]
  · simp

theorem outsOf_append_new {s s' : Toposort T} {k : Nat} {t : T}
    (hh : s'.heap = s.heap ++ [(k, ⟨t, [], []⟩)]) (j : Nat) :
    outsOf s' j = outsOf s j := by
  simp only [outsOf, nodeOf, hh, nodeOfL_append]
  cases hm : nodeOfL s.heap j
  · simp only [nodeOfL_cons, nodeOfL_nil]
    by_cases hj : k = j
    · simp [hj]
    · simp [hj]
  · simp

theorem liveIds_append_new {s s' : Toposort T} {k : Nat} {nd : Node T}
    (hh : s'.heap = s.heap ++ [(k, nd)]) :
    liveIds s' = liveIds s ++ [k] := by
  simp [liveIds, hh]

theorem push_pendings {s : Toposort T} {t : T} :
    (push t s).pendings = sinsert s.nxt s.pendings := rfl

theorem push_blockeds {s : Toposort T} {t : T} :
    (push t s).blockeds = s.blockeds := rfl

theorem push_waitings {s : Toposort T} {t : T} :
    (push t s).waitings = s.waitings := rfl

theorem push_planneds {s : Toposort T} {t : T} :
    (push t s).planneds = s.planneds := rfl

theorem push_nxt {s : Toposort T} {t : T} :
    (push t s).nxt = s.nxt + 1 := rfl

theorem push_heap_fresh {s : Toposort T} {t : T} (hv : t ∉ heapValues s) :
    (push t s).heap = s.heap ++ [(s.nxt, ⟨t, [], []⟩)] := by
  simp [push, hasValue_eq_false hv]

theorem push_liveIds_fresh {s : Toposort T} {t : T} (hv : t ∉ heapValues s) :
    liveIds (push t s) = liveIds s ++ [s.nxt] := by
  simp [liveIds, push_heap_fresh hv]

theorem push_insOf_fresh {s : Toposort T} {t : T} (hv : t ∉ heapValues s)
    (j : Nat) : insOf (push t s) j = insOf s j :=
  insOf_append_new (push_heap_fresh hv) j

theorem push_outsOf_fresh {s : Toposort T} {t : T} (hv : t ∉ heapValues s)
    (j : Nat) : outsOf (push t s) j = outsOf s j :=
  outsOf_append_new (push_heap_fresh hv) j

theorem plan_planneds {s : Toposort T} {t : T} :
    (plan t s).planneds = sinsert s.nxt s.planneds := rfl

theorem plan_pendings {s : Toposort T} {t : T} :
    (plan t s).pendings = s.pendings := rfl

theorem plan_blockeds {s : Toposort T} {t : T} :
    (plan t s).blockeds = s.blockeds := rfl

theorem plan_waitings {s : Toposort T} {t : T} :
    (plan t s).waitings = s.waitings := rfl

theorem plan_nxt {s : Toposort T} {t : T} :
    (plan t s).nxt = s.nxt + 1 := rfl

theorem plan_heap_fresh {s : Toposort T} {t : T} (hv : t ∉ heapValues s) :
    (plan t s).heap = s.heap ++ [(s.nxt, ⟨t, [], []⟩)] := by
  simp [plan, hasValue_eq_false hv]

theorem plan_liveIds_fresh {s : Toposort T} {t : T} (hv : t ∉ heapValues s) :
    liveIds (plan t s) = liveIds s ++ [s.nxt] := by
  simp [liveIds, plan_heap_fresh hv]

theorem plan_insOf_fresh {s : Toposort T} {t : T} (hv : t ∉ heapValues s)
    (j : Nat) : insOf (plan t s) j = insOf s j :=
  insOf_append_new (plan_heap_fresh hv) j

theorem plan_outsOf_fresh {s : Toposort T} {t : T} (hv : t ∉ heapValues s)
    (j : Nat) : outsOf (plan t s) j = outsOf s j :=
  outsOf_append_new (plan_heap_fresh hv) j

theorem inv_push {s : Toposort T} {t : T} (hv : t ∉ heapValues s)
    (hI : Inv s) : Inv (push t s) := by
  obtain ⟨h1, h2, h3, h4, h5, h6, h7, h8, h9, h10, h11, h12, h13, h14⟩ := hI
  have hnl : s.nxt ∉ liveIds s := fun hc => lt_irrefl s.nxt (h2 s.nxt hc)
  have hlive := push_liveIds_fresh (s := s) hv
  have hio := push_insOf_fresh (s := s) hv
  have hoo := push_outsOf_fresh (s := s) hv
  have hnew_ins : insOf s s.nxt = [] := by
    simp [insOf, nodeOf, nodeOfL_eq_none_of_not_mem hnl]
  have hnew_outs : outsOf s s.nxt = [] := by
    simp [outsOf, nodeOf, nodeOfL_eq_none_of_not_mem hnl]
  refine ⟨?_, ?_, ?_, ?_, ?_, ?_, ?_, ?_, ?_, ?_, ?_, ?_, ?_, ?_⟩
  · rw [hlive]
    simp [List.nodup_append, h1, hnl]
  · rw [hlive, push_nxt]
    intro x hx
    rcases List.mem_append.mp hx with hx2 | hx2
    · exact Nat.lt_succ_of_lt (h2 x hx2)
    · rw [List.mem_singleton.mp hx2]
      exact Nat.lt_succ_self s.nxt
  · intro x hx
    rw [push_pendings] at hx
    rw [hlive]
    rcases mem_sinsert.mp hx with rfl | hx2
    · exact List.mem_append.mpr (Or.inr (List.mem_singleton.mpr rfl))
    · exact List.mem_append.mpr (Or.inl (h3 x hx2))
  · intro x hx
    rw [push_blockeds] at hx
    rw [hlive]
    exact List.mem_append.mpr (Or.inl (h4 x hx))
  · intro x hx
    rw [push_waitings] at hx
    rw [hlive]
    exact List.mem_append.mpr (Or.inl (h5 x hx))
  · intro x hx
    rw [push_planneds] at hx
    rw [hlive]
    exact List.mem_append.mpr (Or.inl (h6 x hx))
  · intro x hx
    rw [hlive] at hx
    rw [push_pendings, push_blockeds, push_waitings, push_planneds]
    rcases List.mem_append.mp hx with hx2 | hx2
    · rcases h7 x hx2 with hp | hb | hw | hq
      · exact Or.inl (mem_sinsert_of_mem hp)
      · exact Or.inr (Or.inl hb)
      · exact Or.inr (Or.inr (Or.inl hw))
      · exact Or.inr (Or.inr (Or.inr hq))
    · rw [List.mem_singleton.mp hx2]
      exact Or.inl mem_sinsert_self
  · intro x hx
    rw [hlive] at hx
    rw [push_pendings, push_blockeds, push_waitings, push_planneds]
    refine ⟨?_, ?_, ?_⟩
    · intro hxp
      rcases mem_sinsert.mp hxp with rfl | hxp2
      · exact ⟨fun hc => hnl (h4 s.nxt hc), fun hc => hnl (h5 s.nxt hc),
          fun hc => hnl (h6 s.nxt hc)⟩
      · exact (h8 x (h3 x hxp2)).1 hxp2
    · intro hxb
      exact (h8 x (h4 x hxb)).2.1 hxb
    · intro hxw
      exact (h8 x (h5 x hxw)).2.2 hxw
  · intro x hx hxw hxq
    rw [hlive] at hx
    rw [push_waitings] at hxw
    rw [push_planneds] at hxq
    rw [push_pendings, hio x]
    rcases List.mem_append.mp hx with hx2 | hx2
    · have hxn : x ≠ s.nxt := fun hc => hnl (hc ▸ hx2)
      constructor
      · intro hxp
        rcases mem_sinsert.mp hxp with rfl | hxp2
        · exact absurd rfl hxn
        · exact (h9 x hx2 hxw hxq).mp hxp2
      · intro hins
        exact mem_sinsert_of_mem ((h9 x hx2 hxw hxq).mpr hins)
    · rw [List.mem_singleton.mp hx2]
      constructor
      · intro _
        exact hnew_ins
      · intro _
        exact mem_sinsert_self
  · intro x hx hxq
    rw [push_planneds] at hxq
    rw [hio x]
    exact h10 x (h6 x hxq) hxq
  · intro x hx j hj
    rw [hlive] at hx ⊢
    rw [hio x] at hj
    rcases List.mem_append.mp hx with hx2 | hx2
    · exact List.mem_append.mpr (Or.inl (h11 x hx2 j hj))
    · rw [List.mem_singleton.mp hx2, hnew_ins] at hj
      exact absurd hj (List.not_mem_nil j)
  · intro x hx j hj
    rw [hlive] at hx ⊢
    rw [hoo x] at hj
    rcases List.mem_append.mp hx with hx2 | hx2
    · exact List.mem_append.mpr (Or.inl (h12 x hx2 j hj))
    · rw [List.mem_singleton.mp hx2, hnew_outs] at hj
      exact absurd hj (List.not_mem_nil j)
  · intro x hx j hj
    rw [hlive] at hx
    rw [hio x] at hj
    rw [hoo j]
    rcases List.mem_append.mp hx with hx2 | hx2
    · exact h13 x hx2 j hj
    · rw [List.mem_singleton.mp hx2, hnew_ins] at hj
      exact absurd hj (List.not_mem_nil j)
  · intro x hx hxq j hj
    rw [hlive] at hx
    rw [push_planneds] at hxq
    rw [hoo x] at hj
    rw [hio j]
    rcases List.mem_append.mp hx with hx2 | hx2
    · exact h14 x hx2 hxq j hj
    · rw [List.mem_singleton.mp hx2, hnew_outs] at hj
      exact absurd hj (List.not_mem_nil j)

theorem inv_plan {s : Toposort T} {t : T} (hv : t ∉ heapValues s)
    (hI : Inv s) : Inv (plan t s) := by
  obtain ⟨h1, h2, h3, h4, h5, h6, h7, h8, h9, h10, h11, h12, h13, h14⟩ := hI
  have hnl : s.nxt ∉ liveIds s := fun hc => lt_irrefl s.nxt (h2 s.nxt hc)
  have hlive := plan_liveIds_fresh (s := s) hv
  have hio := plan_insOf_fresh (s := s) hv
  have hoo := plan_outsOf_fresh (s := s) hv
  have hnew_ins : insOf s s.nxt = [] := by
    simp [insOf, nodeOf, nodeOfL_eq_none_of_not_mem hnl]
  have hnew_outs : outsOf s s.nxt = [] := by
    simp [outsOf, nodeOf, nodeOfL_eq_none_of_not_mem hnl]
  refine ⟨?_, ?_, ?_, ?_, ?_, ?_, ?_, ?_, ?_, ?_, ?_, ?_, ?_, ?_⟩
  · rw [hlive]
    simp [List.nodup_append, h1, hnl]
  · rw [hlive, plan_nxt]
    intro x hx
    rcases List.mem_append.mp hx with hx2 | hx2
    · exact Nat.lt_succ_of_lt (h2 x hx2)
    · rw [List.mem_singleton.mp hx2]
      exact Nat.lt_succ_self s.nxt
  · intro x hx
    rw [plan_pendings] at hx
    rw [hlive]
    exact List.mem_append.mpr (Or.inl (h3 x hx))
  · intro x hx
    rw [plan_blockeds] at hx
    rw [hlive]
    exact List.mem_append.mpr (Or.inl (h4 x hx))
  · intro x hx
    rw [plan_waitings] at hx
    rw [hlive]
    exact List.mem_append.mpr (Or.inl (h5 x hx))
  · intro x hx
    rw [plan_planneds] at hx
    rw [hlive]
    rcases mem_sinsert.mp hx with rfl | hx2
    · exact List.mem_append.mpr (Or.inr (List.mem_singleton.mpr rfl))
    · exact List.mem_append.mpr (Or.inl (h6 x hx2))
  · intro x hx
    rw [hlive] at hx
    rw [plan_pendings, plan_blockeds, plan_waitings, plan_planneds]
    rcases List.mem_append.mp hx with hx2 | hx2
    · rcases h7 x hx2 with hp | hb | hw | hq
      · exact Or.inl hp
      · exact Or.inr (Or.inl hb)
      · exact Or.inr (Or.inr (Or.inl hw))
      · exact Or.inr (Or.inr (Or.inr (mem_sinsert_of_mem hq)))
    · rw [List.mem_singleton.mp hx2]
      exact Or.inr (Or.inr (Or.inr mem_sinsert_self))
  · intro x hx
    rw [hlive] at hx
    rw [plan_pendings, plan_blockeds, plan_waitings, plan_planneds]
    refine ⟨?_, ?_, ?_⟩
    · intro hxp
      obtain ⟨hnb, hnw, hnq⟩ := (h8 x (h3 x hxp)).1 hxp
      refine ⟨hnb, hnw, ?_⟩
      intro hc
      rcases mem_sinsert.mp hc with hce | hc2
      · exact hnl (hce ▸ h3 x hxp)
      · exact hnq hc2
    · intro hxb
      obtain ⟨hnw, hnq⟩ := (h8 x (h4 x hxb)).2.1 hxb
      refine ⟨hnw, ?_⟩
      intro hc
      rcases mem_sinsert.mp hc with hce | hc2
      · exact hnl (hce ▸ h4 x hxb)
      · exact hnq hc2
    · intro hxw
      intro hc
      rcases mem_sinsert.mp hc with hce | hc2
      · exact hnl (hce ▸ h5 x hxw)
      · exact (h8 x (h5 x hxw)).2.2 hxw hc2
  · intro x hx hxw hxq
    rw [hlive] at hx
    rw [plan_waitings] at hxw
    rw [plan_planneds] at hxq
    rw [plan_pendings, hio x]
    rcases List.mem_append.mp hx with hx2 | hx2
    · have hxq2 : x ∉ s.planneds := fun hc => hxq (mem_sinsert_of_mem hc)
      exact h9 x hx2 hxw hxq2
    · rw [List.mem_singleton.mp hx2] at hxq
      exact absurd mem_sinsert_self hxq
  · intro x hx hxq
    rw [hlive] at hx
    rw [plan_planneds] at hxq
    rw [hio x]
    rcases mem_sinsert.mp hxq with rfl | hxq2
    · exact hnew_ins
    · exact h10 x (h6 x hxq2) hxq2
  · intro x hx j hj
    rw [hlive] at hx ⊢
    rw [hio x] at hj
    rcases List.mem_append.mp hx with hx2 | hx2
    · exact List.mem_append.mpr (Or.inl (h11 x hx2 j hj))
    · rw [List.mem_singleton.mp hx2, hnew_ins] at hj
      exact absurd hj (List.not_mem_nil j)
  · intro x hx j hj
    rw [hlive] at hx ⊢
    rw [hoo x] at hj
    rcases List.mem_append.mp hx with hx2 | hx2
    · exact List.mem_append.mpr (Or.inl (h12 x hx2 j hj))
    · rw [List.mem_singleton.mp hx2, hnew_outs] at hj
      exact absurd hj (List.not_mem_nil j)
  · intro x hx j hj
    rw [hlive] at hx
    rw [hio x] at hj
    rw [hoo j]
    rcases List.mem_append.mp hx with hx2 | hx2
    · exact h13 x hx2 j hj
    · rw [List.mem_singleton.mp hx2, hnew_ins] at hj
      exact absurd hj (List.not_mem_nil j)
  · intro x hx hxq j hj
    rw [hlive] at hx
    rw [plan_planneds] at hxq
    rw [hoo x] at hj
    rw [hio j]
    have hxq2 : x ∉ s.planneds := fun hc => hxq (mem_sinsert_of_mem hc)
    rcases List.mem_append.mp hx with hx2 | hx2
    · exact h14 x hx2 hxq2 j hj
    · rw [List.mem_singleton.mp hx2, hnew_outs] at hj
      exact absurd hj (List.not_mem_nil j)


theorem inv_erase {s : Toposort T} {t : T} {i : Nat}
    (hf : heapFind s t = some i) (hp : i ∈ s.pendings)
    (hwo : ∀ o ∈ outsOf s i, o ∉ s.waitings) (hI : Inv s) :
    Inv (erase t s) := by
  obtain ⟨h1, h2, h3, h4, h5, h6, h7, h8, h9, h10, h11, h12, h13, h14⟩ := hI
  have hiMem : i ∈ liveIds s := heapFind_mem_live hf
  obtain ⟨hinb, hinw, hinq⟩ := (h8 i hiMem).1 hp
  have hins : insOf s i = [] := (h9 i hiMem hinw hinq).mp hp
  have hiout : i ∉ outsOf s i := by
    intro hc
    have hx := h14 i hiMem hinq i hc
    rw [hins] at hx
    exact List.not_mem_nil i hx
  have aux : ∀ x ∈ outsOf s i, i ∈ insOf s x := h14 i hiMem hinq
  have auxpl : ∀ x ∈ outsOf s i, x ∉ s.planneds := by
    intro x hx hq
    have hxm := aux x hx
    rw [h10 x (h12 i hiMem x hx) hq] at hxm
    exact List.not_mem_nil i hxm
  have auxnp : ∀ x ∈ outsOf s i, x ∉ s.pendings := by
    intro x hx hpx
    have hxm := aux x hx
    rw [(h9 x (h12 i hiMem x hx) (hwo x hx) (auxpl x hx)).mp hpx] at hxm
    exact List.not_mem_nil i hxm
  have hpm := erase_pendings_mem hf
  have hbm := erase_blockeds_mem hf
  have hql := erase_planneds_mem hf
  have hwt := erase_waitings hf
  have hio := erase_insOf hf
  have hoo := erase_outsOf hf
  have hlive := erase_liveIds hf
  have hnx := erase_nxt hf
  refine ⟨?_, ?_, ?_, ?_, ?_, ?_, ?_, ?_, ?_, ?_, ?_, ?_, ?_, ?_⟩
  · rw [hlive]
    exact h1
  · rw [hlive, hnx]
    exact h2
  · intro x hx
    rw [hlive]
    obtain ⟨hc, _⟩ := (hpm x).mp hx
    rcases hc with hc | ⟨hxo, _⟩
    · exact h3 x hc
    · exact h12 i hiMem x hxo
  · intro x hx
    rw [hlive]
    exact h4 x ((hbm x).mp hx).1.1
  · intro x hx
    rw [hwt] at hx
    rw [hlive]
    exact h5 x hx
  · intro x hx
    rw [hlive]
    rcases (hql x).mp hx with rfl | hx2
    · exact hiMem
    · exact h6 x hx2
  · intro x hx
    rw [hlive] at hx
    rw [hwt]
    rcases h7 x hx with hpx | hbx | hwx | hqx
    · by_cases hxi : x = i
      · exact Or.inr (Or.inr (Or.inr ((hql x).mpr (Or.inl hxi))))
      · exact Or.inl ((hpm x).mpr ⟨Or.inl hpx, hxi⟩)
    · have hxi : x ≠ i := by
        rintro rfl
        exact hinb hbx
      by_cases hcond : x ∈ outsOf s i ∧ serase i (insOf s x) = []
      · exact Or.inl ((hpm x).mpr ⟨Or.inr hcond, hxi⟩)
      · exact Or.inr (Or.inl ((hbm x).mpr ⟨⟨hbx, hcond⟩, hxi⟩))
    · exact Or.inr (Or.inr (Or.inl hwx))
    · exact Or.inr (Or.inr (Or.inr ((hql x).mpr (Or.inr hqx))))
  · intro x hx
    rw [hlive] at hx
    rw [hwt]
    refine ⟨?_, ?_, ?_⟩
    · intro hxp
      obtain ⟨hc, hxi⟩ := (hpm x).mp hxp
      rcases hc with hpx | ⟨hxo, hser⟩
      · obtain ⟨hnb, hnw, hnq⟩ := (h8 x hx).1 hpx
        refine ⟨?_, hnw, ?_⟩
        · intro hb
          exact hnb ((hbm x).mp hb).1.1
        · intro hq
          rcases (hql x).mp hq with hxe | hq2
          · exact hxi hxe
          · exact hnq hq2
      · refine ⟨?_, hwo x hxo, ?_⟩
        · intro hb
          exact ((hbm x).mp hb).1.2 ⟨hxo, hser⟩
        · intro hq
          rcases (hql x).mp hq with hxe | hq2
          · exact hxi hxe
          · exact auxpl x hxo hq2
    · intro hxb
      obtain ⟨⟨hbx, _⟩, hxi⟩ := (hbm x).mp hxb
      obtain ⟨hnw, hnq⟩ := (h8 x hx).2.1 hbx
      refine ⟨hnw, ?_⟩
      intro hq
      rcases (hql x).mp hq with hxe | hq2
      · exact hxi hxe
      · exact hnq hq2
    · intro hxw
      have hxi : x ≠ i := by
        rintro rfl
        exact hinw hxw
      intro hq
      rcases (hql x).mp hq with hxe | hq2
      · exact hxi hxe
      · exact (h8 x hx).2.2 hxw hq2
  · intro x hx hxw hxq
    rw [hlive] at hx
    rw [hwt] at hxw
    have hxi : x ≠ i := fun hc => hxq ((hql x).mpr (Or.inl hc))
    have hxpl : x ∉ s.planneds := fun hc => hxq ((hql x).mpr (Or.inr hc))
    rw [hpm x, hio x]
    by_cases hxo : x ∈ outsOf s i
    · rw [if_pos hxo]
      constructor
      · rintro ⟨hc, _⟩
        rcases hc with hpx | ⟨_, hser⟩
        · exact absurd hpx (auxnp x hxo)
        · exact hser
      · intro hser
        exact ⟨Or.inr ⟨hxo, hser⟩, hxi⟩
    · rw [if_neg hxo]
      constructor
      · rintro ⟨hc, _⟩
        rcases hc with hpx | ⟨hxo2, _⟩
        · exact (h9 x hx hxw hxpl).mp hpx
        · exact absurd hxo2 hxo
      · intro hinsx
        exact ⟨Or.inl ((h9 x hx hxw hxpl).mpr hinsx), hxi⟩
  · intro x hx hxq
    rw [hlive] at hx
    rw [hio x]
    rcases (hql x).mp hxq with rfl | hq2
    · rw [if_neg hiout]
      exact hins
    · rw [if_neg (fun hc => auxpl x hc hq2)]
      exact h10 x hx hq2
  · intro x hx j hj
    rw [hlive] at hx ⊢
    rw [hio x] at hj
    by_cases hxo : x ∈ outsOf s i
    · rw [if_pos hxo] at hj
      exact h11 x hx j (serase_subset hj)
    · rw [if_neg hxo] at hj
      exact h11 x hx j hj
  · intro x hx j hj
    rw [hlive] at hx ⊢
    rw [hoo x] at hj
    exact h12 x hx j hj
  · intro x hx j hj
    rw [hlive] at hx
    rw [hio x] at hj
    rw [hoo j]
    by_cases hxo : x ∈ outsOf s i
    · rw [if_pos hxo] at hj
      exact h13 x hx j (serase_subset hj)
    · rw [if_neg hxo] at hj
      exact h13 x hx j hj
  · intro x hx hxq j hj
    rw [hlive] at hx
    rw [hoo x] at hj
    have hxi : x ≠ i := fun hc => hxq ((hql x).mpr (Or.inl hc))
    have hxpl : x ∉ s.planneds := fun hc => hxq ((hql x).mpr (Or.inr hc))
    have hm := h14 x hx hxpl j hj
    rw [hio j]
    by_cases hjo : j ∈ outsOf s i
    · rw [if_pos hjo]
      exact mem_serase.mpr ⟨hm, hxi⟩
    · rw [if_neg hjo]
      exact hm

theorem inv_release {s : Toposort T} {t : T} {i : Nat}
    (hf : heapFind s t = some i) (hnp : i ∉ s.planneds) (hI : Inv s) :
    Inv (release t s) := by
  obtain ⟨h1, h2, h3, h4, h5, h6, h7, h8, h9, h10, h11, h12, h13, h14⟩ := hI
  have hiMem : i ∈ liveIds s := heapFind_mem_live hf
  have aux : ∀ x ∈ outsOf s i, i ∈ insOf s x := h14 i hiMem hnp
  have auxpl : ∀ x ∈ outsOf s i, x ∉ s.planneds := by
    intro x hx hq
    have hxm := aux x hx
    rw [h10 x (h12 i hiMem x hx) hq] at hxm
    exact List.not_mem_nil i hxm
  have hpm := release_pendings_mem hf
  have hbm := release_blockeds_mem hf
  have hql := release_planneds hf
  have hwt := release_waitings hf
  have hio := release_insOf hf
  have hoo := release_outsOf hf
  have hlive := release_liveIds hf
  have hnx := release_nxt hf
  refine ⟨?_, ?_, ?_, ?_, ?_, ?_, ?_, ?_, ?_, ?_, ?_, ?_, ?_, ?_⟩
  · rw [hlive]
    exact h1
  · rw [hlive, hnx]
    exact h2
  · intro x hx
    rw [hlive]
    rcases (hpm x).mp hx with hc | ⟨hxo, _, _⟩
    · exact h3 x hc
    · exact h12 i hiMem x hxo
  · intro x hx
    rw [hlive]
    exact h4 x ((hbm x).mp hx).1
  · intro x hx
    rw [hwt] at hx
    rw [hlive]
    exact h5 x hx
  · intro x hx
    rw [hql] at hx
    rw [hlive]
    exact h6 x hx
  · intro x hx
    rw [hlive] at hx
    rw [hwt, hql]
    rcases h7 x hx with hpx | hbx | hwx | hqx
    · exact Or.inl ((hpm x).mpr (Or.inl hpx))
    · by_cases hcond : x ∈ outsOf s i ∧ serase i (insOf s x) = [] ∧
          x ∉ s.waitings
      · exact Or.inl ((hpm x).mpr (Or.inr hcond))
      · exact Or.inr (Or.inl ((hbm x).mpr ⟨hbx, hcond⟩))
    · exact Or.inr (Or.inr (Or.inl hwx))
    · exact Or.inr (Or.inr (Or.inr hqx))
  · intro x hx
    rw [hlive] at hx
    rw [hwt, hql]
    refine ⟨?_, ?_, ?_⟩
    · intro hxp
      rcases (hpm x).mp hxp with hpx | ⟨hxo, hser, hxw⟩
      · obtain ⟨hnb, hnw, hnq⟩ := (h8 x hx).1 hpx
        exact ⟨fun hb => hnb ((hbm x).mp hb).1, hnw, hnq⟩
      · refine ⟨?_, hxw, auxpl x hxo⟩
        intro hb
        exact ((hbm x).mp hb).2 ⟨hxo, hser, hxw⟩
    · intro hxb
      exact (h8 x hx).2.1 ((hbm x).mp hxb).1
    · exact (h8 x hx).2.2
  · intro x hx hxw hxq
    rw [hlive] at hx
    rw [hwt] at hxw
    rw [hql] at hxq
    rw [hpm x, hio x]
    by_cases hxo : x ∈ outsOf s i
    · rw [if_pos hxo]
      have hxnp : x ∉ s.pendings := by
        intro hpx
        have hxm := aux x hxo
        rw [(h9 x hx hxw hxq).mp hpx] at hxm
        exact List.not_mem_nil i hxm
      constructor
      · rintro (hpx | ⟨_, hser, _⟩)
        · exact absurd hpx hxnp
        · exact hser
      · intro hser
        exact Or.inr ⟨hxo, hser, hxw⟩
    · rw [if_neg hxo]
      constructor
      · rintro (hpx | ⟨hxo2, _, _⟩)
        · exact (h9 x hx hxw hxq).mp hpx
        · exact absurd hxo2 hxo
      · intro hinsx
        exact Or.inl ((h9 x hx hxw hxq).mpr hinsx)
  · intro x hx hxq
    rw [hlive] at hx
    rw [hql] at hxq
    rw [hio x]
    rw [if_neg (fun hc => auxpl x hc hxq)]
    exact h10 x hx hxq
  · intro x hx j hj
    rw [hlive] at hx ⊢
    rw [hio x] at hj
    by_cases hxo : x ∈ outsOf s i
    · rw [if_pos hxo] at hj
      exact h11 x hx j (serase_subset hj)
    · rw [if_neg hxo] at hj
      exact h11 x hx j hj
  · intro x hx j hj
    rw [hlive] at hx ⊢
    rw [hoo x] at hj
    by_cases hxi : x = i
    · rw [if_pos hxi] at hj
      exact absurd hj (List.not_mem_nil j)
    · rw [if_neg hxi] at hj
      exact h12 x hx j hj
  · intro x hx j hj
    rw [hlive] at hx
    rw [hio x] at hj
    have hji : j ≠ i ∧ j ∈ insOf s x := by
      by_cases hxo : x ∈ outsOf s i
      · rw [if_pos hxo] at hj
        obtain ⟨hj2, hji⟩ := mem_serase.mp hj
        exact ⟨hji, hj2⟩
      · rw [if_neg hxo] at hj
        refine ⟨?_, hj⟩
        rintro rfl
        exact hxo (h13 x hx j hj)
    rw [hoo j, if_neg hji.1]
    exact h13 x hx j hji.2
  · intro x hx hxq j hj
    rw [hlive] at hx
    rw [hql] at hxq
    rw [hoo x] at hj
    by_cases hxi : x = i
    · rw [if_pos hxi] at hj
      exact absurd hj (List.not_mem_nil j)
    · rw [if_neg hxi] at hj
      have hm := h14 x hx hxq j hj
      rw [hio j]
      by_cases hjo : j ∈ outsOf s i
      · rw [if_pos hjo]
        exact mem_serase.mpr ⟨hm, hxi⟩
      · rw [if_neg hjo]
        exact hm

/-! ### The transition systems

`Step` is one application of any public mutating operation with arbitrary
arguments.  `StepR` restricts each operation to the natural preconditions
of the specification's operation table (link/unlink on a non-Planned
dependent, complete on a Pending node with no Waiting dependent, resume on
a Waiting node, activate on a Planned node with no retained outgoing
edges, suspend/sever on non-Planned nodes, fresh values for stage and
activate-new). -/

inductive Step : Toposort T → Toposort T → Prop where
  | pushU (s : Toposort T) (t : T) : Step s (push t s)
  | planU (s : Toposort T) (t : T) : Step s (plan t s)
  | useU (s : Toposort T) (t : T) : Step s (use t s)
  | attachU (s : Toposort T) (lhs rhs : T) : Step s (attach lhs rhs s)
  | detachU (s : Toposort T) (lhs rhs : T) : Step s (detach lhs rhs s)
  | eraseU (s : Toposort T) (t : T) : Step s (erase t s)
  | releaseU (s : Toposort T) (t : T) : Step s (release t s)
  | haltU (s : Toposort T) (t : T) : Step s (halt t s)
  | wakeU (s : Toposort T) (t : T) : Step s (wake t s)
  | clearU (s : Toposort T) : Step s (clear s)

/-- States reachable from a fresh structure by any sequence of public
operations. -/
def Reachable (s : Toposort T) : Prop :=
  Relation.ReflTransGen Step init s

inductive StepR : Toposort T → Toposort T → Prop where
  | pushR (s : Toposort T) (t : T) (hv : t ∉ heapValues s) :
      StepR s (push t s)
  | planR (s : Toposort T) (t : T) (hv : t ∉ heapValues s) :
      StepR s (plan t s)
  | useR (s : Toposort T) (t : T) (i : Nat) (hf : heapFind s t = some i)
      (hq : i ∈ s.planneds) (ho : outsOf s i = []) : StepR s (use t s)
  | attachR (s : Toposort T) (lhs rhs : T) (li ri : Nat)
      (hl : heapFind s lhs = some li) (hr : heapFind s rhs = some ri)
      (hq : li ∉ s.planneds) : StepR s (attach lhs rhs s)
  | detachR (s : Toposort T) (lhs rhs : T) (li ri : Nat)
      (hl : heapFind s lhs = some li) (hr : heapFind s rhs = some ri)
      (hq : li ∉ s.planneds) : StepR s (detach lhs rhs s)
  | eraseR (s : Toposort T) (t : T) (i : Nat) (hf : heapFind s t = some i)
      (hp : i ∈ s.pendings) (hw : ∀ o ∈ outsOf s i, o ∉ s.waitings) :
      StepR s (erase t s)
  | releaseR (s : Toposort T) (t : T) (i : Nat) (hf : heapFind s t = some i)
      (hq : i ∉ s.planneds) : StepR s (release t s)
  | haltR (s : Toposort T) (t : T) (i : Nat) (hf : heapFind s t = some i)
      (hq : i ∉ s.planneds) : StepR s (halt t s)
  | wakeR (s : Toposort T) (t : T) (i : Nat) (hf : heapFind s t = some i)
      (hw : i ∈ s.waitings) : StepR s (wake t s)
  | clearR (s : Toposort T) : StepR s (clear s)

/-- States reachable from a fresh structure by operation sequences that
respect the specification's preconditions. -/
def ReachableR (s : Toposort T) : Prop :=
  Relation.ReflTransGen StepR init s

theorem stepR_inv {s s' : Toposort T} (h : StepR s s') (hI : Inv s) :
    Inv s' := by
  cases h with
  | pushR t hv => exact inv_push hv hI
  | planR t hv => exact inv_plan hv hI
  | useR t i hf hq ho => exact inv_use hf hq ho hI
  | attachR lhs rhs li ri hl hr hq => exact inv_attach hl hr hq hI
  | detachR lhs rhs li ri hl hr hq => exact inv_detach hl hr hq hI
  | eraseR t i hf hp hw => exact inv_erase hf hp hw hI
  | releaseR t i hf hq => exact inv_release hf hq hI
  | haltR t i hf hq => exact inv_halt hf hq hI
  | wakeR t i hf hw => exact inv_wake hf hw hI
  | clearR => exact inv_clear

theorem reachableR_inv {s : Toposort T} (h : ReachableR s) : Inv s := by
  induction h with
  | refl => exact inv_init
  | tail hab hbc ih => exact stepR_inv hbc ih

/-! ### The forward edge-symmetry invariant (all reachable states) -/

/-- Forward symmetry: every incoming edge is mirrored by an outgoing
edge.  (The converse direction fails after `erase`, which leaves the
completed node's outgoing set in place.) -/
def SymForward (s : Toposort T) : Prop :=
  ∀ i j : Nat, j ∈ insOf s i → i ∈ outsOf s j

theorem symForward_congr {s s' : Toposort T} (hh : s'.heap = s.heap)
    (h : SymForward s) : SymForward s' := by
  intro i j hj
  rw [insOf_of_heap_eq hh] at hj
  rw [outsOf_of_heap_eq hh]
  exact h i j hj

theorem symForward_push {s : Toposort T} {t : T} (h : SymForward s) :
    SymForward (push t s) := by
  by_cases hv : t ∈ heapValues s
  · have hh : (push t s).heap = s.heap := by
      simp [push, hasValue_iff.mpr hv]
    exact symForward_congr hh h
  · intro i j hj
    rw [push_insOf_fresh hv] at hj
    rw [push_outsOf_fresh hv]
    exact h i j hj

theorem symForward_plan {s : Toposort T} {t : T} (h : SymForward s) :
    SymForward (plan t s) := by
  by_cases hv : t ∈ heapValues s
  · have hh : (plan t s).heap = s.heap := by
      simp [plan, hasValue_iff.mpr hv]
    exact symForward_congr hh h
  · intro i j hj
    rw [plan_insOf_fresh hv] at hj
    rw [plan_outsOf_fresh hv]
    exact h i j hj

theorem symForward_use {s : Toposort T} {t : T} (h : SymForward s) :
    SymForward (use t s) := by
  cases hf : heapFind s t with
  | none =>
    have he : use t s = s := by
      simp [use, hf]
    rw [he]
    exact h
  | some i =>
    by_cases hq : i ∈ s.planneds
    · rw [use_eq_planned hf hq]
      exact symForward_congr rfl h
    · rw [use_eq_not_planned hf hq]
      exact h

theorem symForward_attach {s : Toposort T} {lhs rhs : T}
    (h : SymForward s) : SymForward (attach lhs rhs s) := by
  cases hl : heapFind s lhs with
  | none =>
    have he : attach lhs rhs s = s := by
      simp [attach, hl]
    rw [he]
    exact h
  | some li =>
    cases hr : heapFind s rhs with
    | none =>
      have he : attach lhs rhs s = s := by
        simp [attach, hl, hr]
      rw [he]
      exact h
    | some ri =>
      intro i j hj
      rw [attach_insOf hl hr] at hj
      rw [attach_outsOf hl hr]
      by_cases hil : i = li
      · rw [if_pos hil] at hj
        rcases mem_sinsert.mp hj with rfl | hj2
        · rw [if_pos rfl, hil]
          exact mem_sinsert_self
        · have := h i j hj2
          by_cases hjr : j = ri
          · rw [if_pos hjr]
            exact mem_sinsert_of_mem this
          · rw [if_neg hjr]
            exact this
      · rw [if_neg hil] at hj
        have := h i j hj
        by_cases hjr : j = ri
        · rw [if_pos hjr]
          exact mem_sinsert_of_mem this
        · rw [if_neg hjr]
          exact this

theorem symForward_detach {s : Toposort T} {lhs rhs : T}
    (h : SymForward s) : SymForward (detach lhs rhs s) := by
  cases hl : heapFind s lhs with
  | none =>
    have he : detach lhs rhs s = s := by
      simp [detach, hl]
    rw [he]
    exact h
  | some li =>
    cases hr : heapFind s rhs with
    | none =>
      have he : detach lhs rhs s = s := by
        simp [detach, hl, hr]
      rw [he]
      exact h
    | some ri =>
      intro i j hj
      rw [detach_insOf hl hr] at hj
      rw [detach_outsOf hl hr]
      by_cases hil : i = li
      · rw [if_pos hil] at hj
        obtain ⟨hj2, hjr⟩ := mem_serase.mp hj
        rw [if_neg hjr]
        exact h i j hj2
      · rw [if_neg hil] at hj
        have := h i j hj
        by_cases hjr : j = ri
        · rw [if_pos hjr]
          exact mem_serase.mpr ⟨this, hil⟩
        · rw [if_neg hjr]
          exact this

theorem symForward_erase {s : Toposort T} {t : T} (h : SymForward s) :
    SymForward (erase t s) := by
  cases hf : heapFind s t with
  | none =>
    have he : erase t s = s := by
      simp [erase, hf]
    rw [he]
    exact h
  | some i =>
    intro x j hj
    rw [erase_insOf hf] at hj
    rw [erase_outsOf hf]
    by_cases hxo : x ∈ outsOf s i
    · rw [if_pos hxo] at hj
      exact h x j (serase_subset hj)
    · rw [if_neg hxo] at hj
      exact h x j hj

theorem symForward_release {s : Toposort T} {t : T} (h : SymForward s) :
    SymForward (release t s) := by
  cases hf : heapFind s t with
  | none =>
    have he : release t s = s := by
      simp [release, hf]
    rw [he]
    exact h
  | some i =>
    intro x j hj
    rw [release_insOf hf] at hj
    have hji : j ≠ i ∧ j ∈ insOf s x := by
      by_cases hxo : x ∈ outsOf s i
      · rw [if_pos hxo] at hj
        obtain ⟨hj2, hji⟩ := mem_serase.mp hj
        exact ⟨hji, hj2⟩
      · rw [if_neg hxo] at hj
        refine ⟨?_, hj⟩
        rintro rfl
        exact hxo (h x j hj)
    rw [release_outsOf hf, if_neg hji.1]
    exact h x j hji.2

theorem symForward_halt {s : Toposort T} {t : T} (h : SymForward s) :
    SymForward (halt t s) := by
  cases hf : heapFind s t with
  | none =>
    have he : halt t s = s := by
      simp [halt, hf]
    rw [he]
    exact h
  | some i =>
    rw [halt_eq hf]
    exact symForward_congr rfl h

theorem symForward_wake {s : Toposort T} {t : T} (h : SymForward s) :
    SymForward (wake t s) := by
  cases hf : heapFind s t with
  | none =>
    have he : wake t s = s := by
      simp [wake, hf]
    rw [he]
    exact h
  | some i =>
    exact symForward_congr (wake_heap hf) h

theorem symForward_clear {s : Toposort T} : SymForward (clear s) := by
  intro i j hj
  simp [insOf, nodeOf, clear, nodeOfL_nil] at hj

theorem symForward_init : SymForward (init : Toposort T) := by
  intro i j hj
  simp [insOf, nodeOf, init, nodeOfL_nil] at hj

theorem step_symForward {s s' : Toposort T} (h : Step s s')
    (hS : SymForward s) : SymForward s' := by
  cases h with
  | pushU t => exact symForward_push hS
  | planU t => exact symForward_plan hS
  | useU t => exact symForward_use hS
  | attachU lhs rhs => exact symForward_attach hS
  | detachU lhs rhs => exact symForward_detach hS
  | eraseU t => exact symForward_erase hS
  | releaseU t => exact symForward_release hS
  | haltU t => exact symForward_halt hS
  | wakeU t => exact symForward_wake hS
  | clearU => exact symForward_clear

theorem reachable_symForward {s : Toposort T} (h : Reachable s) :
    SymForward s := by
  induction h with
  | refl => exact symForward_init
  | tail hab hbc ih => exact step_symForward hbc ih

/-! ### Correctness of the cycle walk on deadlocked invariant states -/

theorem mem_of_head_some {l : List Nat} {y : Nat} (h : l.head? = some y) :
    y ∈ l := by
  cases l with
  | nil => simp at h
  | cons a t =>
    simp only [List.head?_cons, Option.some.injEq] at h
    rw [← h]
    exact List.mem_cons_self a t

theorem nodup_subset_card {l1 l2 : List Nat} (h1 : l1.Nodup)
    (hs : ∀ x ∈ l1, x ∈ l2) : l1.length ≤ l2.toFinset.card := by
  rw [← List.toFinset_card_of_nodup h1]
  apply Finset.card_le_card
  intro x hx
  rw [List.mem_toFinset] at hx ⊢
  exact hs x hx

/-- The visiteds list of the first phase of the cycle walk, most recent
first, forms a chain of incoming-edge steps ending at the current node. -/
def ChainR (s : Toposort T) : List Nat → Nat → Prop
  | [], _ => True
  | w :: ws, n => snext s w = some n ∧ ChainR s ws w

theorem chainR_extract {s : Toposort T} :
    ∀ (pre : List Nat) (m : Nat) (post : List Nat) (n : Nat),
    ChainR s (pre ++ m :: post) n →
    List.Chain' (fun a b => snext s a = some b) (m :: pre.reverse) ∧
    (∀ z, (m :: pre.reverse).getLast? = some z → snext s z = some n) := by
  intro pre
  induction pre with
  | nil =>
    intro m post n hc
    obtain ⟨hs, _⟩ := hc
    refine ⟨List.chain'_singleton m, ?_⟩
    intro z hz
    simp only [List.reverse_nil, List.getLast?_singleton,
      Option.some.injEq] at hz
    rw [← hz]
    exact hs
  | cons w pre ih =>
    intro m post n hc
    have hc2 : ChainR s (w :: (pre ++ m :: post)) n := hc
    obtain ⟨hs, hrest⟩ := hc2
    obtain ⟨ihc, ihl⟩ := ih m post w hrest
    have hform : m :: (w :: pre).reverse = (m :: pre.reverse) ++ [w] := by
      simp
    rw [hform]
    constructor
    · rw [List.chain'_append]
      refine ⟨ihc, List.chain'_singleton w, ?_⟩
      intro x hx y hy
      simp only [List.head?_cons, Option.mem_def, Option.some.injEq] at hy
      rw [← hy]
      exact ihl x hx
    · intro z hz
      rw [List.getLast?_concat] at hz
      injection hz with hz2
      rw [← hz2]
      exact hs

theorem findRepeat_spec {s : Toposort T}
    (hstep : ∀ x ∈ s.blockeds, ∃ y, snext s x = some y ∧ y ∈ s.blockeds) :
    ∀ (fuel : Nat) (vs : List Nat) (n : Nat), n ∈ s.blockeds → vs.Nodup →
    (∀ v ∈ vs, v ∈ s.blockeds) → ChainR s vs n →
    s.blockeds.toFinset.card + 1 ≤ fuel + vs.length →
    ∃ r path, findRepeat s fuel vs n = some r ∧
      path ≠ [] ∧ path.head? = some r ∧ path.Nodup ∧
      (∀ x ∈ path, x ∈ s.blockeds) ∧
      List.Chain' (fun a b => snext s a = some b) path ∧
      (∀ z, path.getLast? = some z → snext s z = some r) ∧
      path.length ≤ s.blockeds.toFinset.card := by
  intro fuel
  induction fuel with
  | zero =>
    intro vs n _ hnd hsub _ hm
    have := nodup_subset_card hnd hsub
    omega
  | succ fuel ih =>
    intro vs n hn hnd hsub hch hm
    by_cases hmem : n ∈ vs
    · obtain ⟨pre, post, hsplit⟩ := List.append_of_mem hmem
      rw [hsplit] at hch hnd hsub
      obtain ⟨hpre_nd, hnp_nd, hdisj⟩ := List.nodup_append.mp hnd
      have hnpre : n ∉ pre := fun hc =>
        hdisj hc (List.mem_cons_self n post)
      obtain ⟨hex1, hex2⟩ := chainR_extract pre n post n hch
      have hpath_nd : (n :: pre.reverse).Nodup := by
        rw [List.nodup_cons]
        constructor
        · intro hc
          rw [List.mem_reverse] at hc
          exact hnpre hc
        · exact List.nodup_reverse.mpr hpre_nd
      have hpath_sub : ∀ x ∈ n :: pre.reverse, x ∈ s.blockeds := by
        intro x hx
        rcases List.mem_cons.mp hx with rfl | hx2
        · exact hn
        · rw [List.mem_reverse] at hx2
          exact hsub x (List.mem_append.mpr (Or.inl hx2))
      refine ⟨n, n :: pre.reverse, ?_, List.cons_ne_nil n pre.reverse, rfl,
        hpath_nd, hpath_sub, hex1, hex2, ?_⟩
      · simp only [findRepeat, if_pos hmem]
      · exact nodup_subset_card hpath_nd hpath_sub
    · obtain ⟨m, hsn, hmb⟩ := hstep n hn
      obtain ⟨r, path, heq, hr⟩ := ih (n :: vs) m hmb
        (List.nodup_cons.mpr ⟨hmem, hnd⟩)
        (by
          intro v hv
          rcases List.mem_cons.mp hv with rfl | hv2
          · exact hn
          · exact hsub v hv2)
        ⟨hsn, hch⟩
        (by
          simp only [List.length_cons]
          omega)
      refine ⟨r, path, ?_, hr⟩
      simp only [findRepeat, if_neg hmem, hsn]
      exact heq

theorem collectCycle_spec {s : Toposort T} :
    ∀ (path : List Nat) (fuel : Nat) (start cur : Nat),
    path.head? = some cur →
    List.Chain' (fun a b => snext s a = some b) path →
    (∀ z, path.getLast? = some z → snext s z = some start) →
    (∀ x ∈ path.tail, x ≠ start) →
    path.length ≤ fuel →
    collectCycle s fuel start cur = some path := by
  intro path
  induction path with
  | nil =>
    intro fuel start cur hh
    simp at hh
  | cons a rest ih =>
    intro fuel start cur hh hch hlast htail hlen
    simp only [List.head?_cons, Option.some.injEq] at hh
    subst hh
    cases fuel with
    | zero => simp at hlen
    | succ fuel =>
      cases rest with
      | nil =>
        have hs : snext s a = some start := by
          apply hlast
          rfl
        simp only [collectCycle, hs]
        simp
      | cons b rest2 =>
        have hab : snext s a = some b := (List.chain'_cons.mp hch).1
        have hbs : b ≠ start := htail b (List.mem_cons_self b rest2)
        have hrec : collectCycle s fuel start b = some (b :: rest2) := by
          apply ih fuel start b rfl (List.chain'_cons.mp hch).2
          · intro z hz
            apply hlast
            rw [List.getLast?_cons_cons]
            exact hz
          · intro x hx
            exact htail x (List.mem_cons_of_mem b hx)
          · simp only [List.length_cons] at hlen ⊢
            omega
        simp only [collectCycle, hab, if_neg hbs, hrec, Option.map_some']

theorem cyclic_decomp {s : Toposort T} (hcy : cyclic s = true) :
    s.pendings = [] ∧ s.waitings = [] ∧ s.blockeds ≠ [] := by
  unfold cyclic empty waiting at hcy
  rw [Bool.and_eq_true, Bool.and_eq_true] at hcy
  obtain ⟨⟨hp, hw⟩, hb⟩ := hcy
  rw [Bool.not_not] at hw
  rw [List.isEmpty_eq_true] at hp hw
  rw [Bool.not_eq_true', List.isEmpty_eq_false] at hb
  exact ⟨hp, hw, hb⟩

theorem blocked_snext {s : Toposort T} (hI : Inv s)
    (hpe : s.pendings = []) (hwe : s.waitings = [])
    (hq : s.planneds = []) :
    ∀ x ∈ s.blockeds, ∃ y, snext s x = some y ∧ y ∈ s.blockeds := by
  obtain ⟨h1, h2, h3, h4, h5, h6, h7, h8, h9, h10, h11, h12, h13, h14⟩ := hI
  intro x hx
  have hxl : x ∈ liveIds s := h4 x hx
  have hxw : x ∉ s.waitings := by
    rw [hwe]
    exact List.not_mem_nil x
  have hxq : x ∉ s.planneds := by
    rw [hq]
    exact List.not_mem_nil x
  have hxp : x ∉ s.pendings := by
    rw [hpe]
    exact List.not_mem_nil x
  have hins : insOf s x ≠ [] := fun hc => hxp ((h9 x hxl hxw hxq).mpr hc)
  cases hcase : insOf s x with
  | nil => exact absurd hcase hins
  | cons y rest =>
    refine ⟨y, ?_, ?_⟩
    · simp [snext, hcase]
    · have hym : y ∈ insOf s x := by
        rw [hcase]
        exact List.mem_cons_self y rest
      have hyl : y ∈ liveIds s := h11 x hxl y hym
      rcases h7 y hyl with hyp | hyb | hyw | hyq
      · rw [hpe] at hyp
        exact absurd hyp (List.not_mem_nil y)
      · exact hyb
      · rw [hwe] at hyw
        exact absurd hyw (List.not_mem_nil y)
      · rw [hq] at hyq
        exact absurd hyq (List.not_mem_nil y)

theorem cycleIds_spec {s : Toposort T} (hI : Inv s) (hcy : cyclic s = true)
    (hq : s.planneds = []) :
    ∃ ids, cycleIds s = some ids ∧ ids ≠ [] ∧
      (∀ x ∈ ids, x ∈ s.blockeds) ∧
      List.Chain' (fun a b => b ∈ insOf s a) ids ∧
      (∀ h z, ids.head? = some h → ids.getLast? = some z →
        h ∈ insOf s z) := by
  obtain ⟨hpe, hwe, hbn⟩ := cyclic_decomp hcy
  have hstep := blocked_snext hI hpe hwe hq
  have hlivnd : (liveIds s).Nodup := hI.1
  have hbsub : ∀ x ∈ s.blockeds, x ∈ liveIds s := hI.2.2.2.1
  have hcard : s.blockeds.toFinset.card ≤ s.heap.length := by
    have h1 : s.blockeds.toFinset.card ≤ (liveIds s).toFinset.card := by
      apply Finset.card_le_card
      intro x hx
      rw [List.mem_toFinset] at hx ⊢
      exact hbsub x hx
    rw [List.toFinset_card_of_nodup hlivnd] at h1
    simpa [liveIds] using h1
  cases hb0 : s.blockeds.head? with
  | none =>
    rw [List.head?_eq_none_iff] at hb0
    exact absurd hb0 hbn
  | some b0 =>
    have hb0m : b0 ∈ s.blockeds := mem_of_head_some hb0
    obtain ⟨r, path, heq, hne, hhead, hnd, hsubB, hch, hlast, hplen⟩ :=
      findRepeat_spec hstep (s.heap.length + 1) [] b0 hb0m List.nodup_nil
        (by
          intro v hv
          exact absurd hv (List.not_mem_nil v))
        trivial
        (by
          simp only [List.length_nil]
          omega)
    have htailne : ∀ x ∈ path.tail, x ≠ r := by
      cases hpc : path with
      | nil =>
        intro x hx
        exact absurd hx (List.not_mem_nil x)
      | cons a t =>
        rw [hpc] at hhead hnd
        simp only [List.head?_cons, Option.some.injEq] at hhead
        intro x hx hxe
        rw [List.nodup_cons] at hnd
        rw [List.tail_cons] at hx
        rw [hxe, ← hhead] at hx
        exact hnd.1 hx
    have hcol : collectCycle s (s.heap.length + 1) r r = some path :=
      collectCycle_spec path (s.heap.length + 1) r r hhead hch hlast htailne
        (by omega)
    refine ⟨path, ?_, hne, hsubB, ?_, ?_⟩
    · simp only [cycleIds, hcy, if_pos, hb0, heq]
      exact hcol
    · exact List.Chain'.imp (fun a b hab => mem_of_head_some hab) hch
    · intro h z hh hz
      have hhr : h = r := by
        rw [hhead] at hh
        injection hh with hh2
        exact hh2.symm
      rw [hhr]
      exact mem_of_head_some (hlast z hz)

theorem valuesOf_some {s : Toposort T} :
    ∀ l : List Nat, (∀ x ∈ l, x ∈ liveIds s) →
    ∃ vs, valuesOf s l = some vs ∧ vs.length = l.length := by
  intro l
  induction l with
  | nil =>
    intro _
    exact ⟨[], rfl, rfl⟩
  | cons i rest ih =>
    intro hsub
    have hi : i ∈ liveIds s := hsub i (List.mem_cons_self i rest)
    have hex : ∃ p ∈ s.heap, p.1 = i := by
      obtain ⟨p, hp, hpi⟩ := List.mem_map.mp hi
      exact ⟨p, hp, hpi⟩
    have hv : (valueOf s i).isSome := by
      simp only [valueOf, Option.isSome_map']
      exact nodeOfL_isSome_of_mem hex
    obtain ⟨v, hv2⟩ := Option.isSome_iff_exists.mp hv
    obtain ⟨vs, hvs, hlen⟩ := ih (fun x hx => hsub x (List.mem_cons_of_mem i hx))
    refine ⟨v :: vs, ?_, ?_⟩
    · simp only [valuesOf, hv2, hvs]
    · simp [hlen]

set_option synthInstance.maxHeartbeats 2000000 in
set_option synthInstance.maxSize 2048 in
instance (s : Toposort T) : Decidable (Inv s) := by
  unfold Inv
  infer_instance

/-! ### Concrete states used by the claim theorems -/

/-- Two activated tasks 0 and 1 with 0 depending on 1. -/
def exA : Toposort Nat := attach 0 1 (push 1 (push 0 init))

/-- Stage 0, activate-new 1, link 0 to 1 while 0 is still Planned, then
activate 0 from the plan. -/
def c1state : Toposort Nat := use 0 (attach 0 1 (push 1 (plan 0 init)))

/-- Stage 0, activate-new 1, link 0 to 1 while 0 is still Planned. -/
def c4state : Toposort Nat := attach 0 1 (push 1 (plan 0 init))

/-- Complete task 1 while 0 depends on it. -/
def c5state : Toposort Nat := erase 1 exA

/-- Suspend the dependent 0, then complete its dependency 1. -/
def c2state : Toposort Nat := erase 1 (halt 0 exA)

/-- A single task with a self-loop dependency. -/
def c9pre : Toposort Nat := attach 0 0 (push 0 init)

/-- The two-cycle 0 ↔ 1. -/
def c3cyc : Toposort Nat := attach 1 0 exA

/-- Active task 0 depending on a still-Planned task 1. -/
def c3planned : Toposort Nat := attach 0 1 (plan 1 (push 0 init))

theorem reach_exA : Reachable exA :=
  Relation.ReflTransGen.tail
    (Relation.ReflTransGen.tail
      (Relation.ReflTransGen.single (Step.pushU init 0))
      (Step.pushU (push 0 init) 1))
    (Step.attachU (push 1 (push 0 init)) 0 1)

theorem reachR_exA : ReachableR exA :=
  Relation.ReflTransGen.tail
    (Relation.ReflTransGen.tail
      (Relation.ReflTransGen.single (StepR.pushR init 0 (by decide)))
      (StepR.pushR (push 0 init) 1 (by decide)))
    (StepR.attachR (push 1 (push 0 init)) 0 1 0 1 (by decide) (by decide)
      (by decide))

theorem reach_c1state : Reachable c1state :=
  Relation.ReflTransGen.tail
    (Relation.ReflTransGen.tail
      (Relation.ReflTransGen.tail
        (Relation.ReflTransGen.single (Step.planU init 0))
        (Step.pushU (plan 0 init) 1))
      (Step.attachU (push 1 (plan 0 init)) 0 1))
    (Step.useU (attach 0 1 (push 1 (plan 0 init))) 0)

theorem reach_c4state : Reachable c4state :=
  Relation.ReflTransGen.tail
    (Relation.ReflTransGen.tail
      (Relation.ReflTransGen.single (Step.planU init 0))
      (Step.pushU (plan 0 init) 1))
    (Step.attachU (push 1 (plan 0 init)) 0 1)

theorem reach_c5state : Reachable c5state :=
  Relation.ReflTransGen.tail reach_exA (Step.eraseU exA 1)

theorem reach_c2state : Reachable c2state :=
  Relation.ReflTransGen.tail
    (Relation.ReflTransGen.tail reach_exA (Step.haltU exA 0))
    (Step.eraseU (halt 0 exA) 1)

theorem reach_c9pre : Reachable c9pre :=
  Relation.ReflTransGen.tail
    (Relation.ReflTransGen.single (Step.pushU init 0))
    (Step.attachU (push 0 init) 0 0)

theorem reach_c3cyc : Reachable c3cyc :=
  Relation.ReflTransGen.tail reach_exA (Step.attachU exA 1 0)

theorem reach_c3planned : Reachable c3planned :=
  Relation.ReflTransGen.tail
    (Relation.ReflTransGen.tail
      (Relation.ReflTransGen.single (Step.pushU init 0))
      (Step.planU (push 0 init) 1))
    (Step.attachU (plan 1 (push 0 init)) 0 1)

/-! ### Claim C1 — partition consistency -/

/-- Counterexample to C1: after stage(0); activate-new(1); link(0,1);
activate(0), node 0 is in Pending (and also Blocked) with a non-empty
incoming set while being in neither Waiting nor Planned, refuting the
partition-consistency invariant for unrestricted operation sequences. -/
theorem C1_counterexample :
    Reachable c1state ∧
    ¬ (∀ i ∈ liveIds c1state, i ∉ c1state.waitings →
        i ∉ c1state.planneds →
        ((i ∈ c1state.pendings ↔ insOf c1state i = []) ∧
         (i ∈ c1state.blockeds ↔ insOf c1state i ≠ []))) :=
  ⟨reach_c1state, by decide⟩

/-- C1 (amended): the partition-consistency invariant holds in every state
reachable by operation sequences respecting the spec's preconditions
(stage/activate-new on fresh values, link/unlink with a non-Planned
dependent, activate on a Planned node with no retained outgoing edges,
complete on a Pending node with no Waiting dependent, sever/suspend on
non-Planned nodes, resume on Waiting nodes): every live node in neither
Waiting nor Planned is in Pending iff its incoming set is empty, and in
Blocked iff its incoming set is non-empty. -/
theorem C1_amended {T : Type} [DecidableEq T] {s : Toposort T}
    (h : ReachableR s) :
    ∀ i ∈ liveIds s, i ∉ s.waitings → i ∉ s.planneds →
      ((i ∈ s.pendings ↔ insOf s i = []) ∧
       (i ∈ s.blockeds ↔ insOf s i ≠ [])) := by
  obtain ⟨h1, h2, h3, h4, h5, h6, h7, h8, h9, h10, h11, h12, h13, h14⟩ :=
    reachableR_inv h
  intro i hi hiw hiq
  refine ⟨h9 i hi hiw hiq, ?_, ?_⟩
  · intro hb hc
    have hip : i ∈ s.pendings := (h9 i hi hiw hiq).mpr hc
    exact ((h8 i hi).1 hip).1 hb
  · intro hne
    rcases h7 i hi with hp | hb | hw | hq
    · exact absurd ((h9 i hi hiw hiq).mp hp) hne
    · exact hb
    · exact absurd hw hiw
    · exact absurd hq hiq

/-- Witness for C1 (amended) at the concrete reachable state `exA`. -/
theorem C1_witness :
    (0 ∈ exA.pendings ↔ insOf exA 0 = []) ∧
    (0 ∈ exA.blockeds ↔ insOf exA 0 ≠ []) :=
  C1_amended reachR_exA 0 (by decide) (by decide) (by decide)

/-! ### Claim C4 — partition disjointness -/

/-- Counterexample to C4: after stage(0); activate-new(1); link(0,1), node
0 is simultaneously in Planned and Blocked, refuting partition
disjointness for unrestricted operation sequences. -/
theorem C4_counterexample :
    Reachable c4state ∧
    ¬ (∀ i ∈ liveIds c4state,
        (i ∈ c4state.pendings ∨ i ∈ c4state.blockeds ∨
          i ∈ c4state.waitings ∨ i ∈ c4state.planneds) ∧
        (i ∈ c4state.pendings → i ∉ c4state.blockeds ∧
          i ∉ c4state.waitings ∧ i ∉ c4state.planneds) ∧
        (i ∈ c4state.blockeds → i ∉ c4state.waitings ∧
          i ∉ c4state.planneds) ∧
        (i ∈ c4state.waitings → i ∉ c4state.planneds)) :=
  ⟨reach_c4state, by decide⟩

/-- C4 (amended): in every state reachable by operation sequences
respecting the spec's preconditions (as in the amended C1), every node in
the store belongs to at least one of the four partitions and to no two of
them at once. -/
theorem C4_amended {T : Type} [DecidableEq T] {s : Toposort T}
    (h : ReachableR s) :
    ∀ i ∈ liveIds s,
      (i ∈ s.pendings ∨ i ∈ s.blockeds ∨ i ∈ s.waitings ∨
        i ∈ s.planneds) ∧
      (i ∈ s.pendings → i ∉ s.blockeds ∧ i ∉ s.waitings ∧
        i ∉ s.planneds) ∧
      (i ∈ s.blockeds → i ∉ s.waitings ∧ i ∉ s.planneds) ∧
      (i ∈ s.waitings → i ∉ s.planneds) := by
  obtain ⟨h1, h2, h3, h4, h5, h6, h7, h8, h9, h10, h11, h12, h13, h14⟩ :=
    reachableR_inv h
  intro i hi
  exact ⟨h7 i hi, h8 i hi⟩

/-- Witness for C4 (amended) at the concrete reachable state `exA`. -/
theorem C4_witness :
    ((0 ∈ exA.pendings ∨ 0 ∈ exA.blockeds ∨ 0 ∈ exA.waitings ∨
       0 ∈ exA.planneds) ∧
     (0 ∈ exA.pendings → 0 ∉ exA.blockeds ∧ 0 ∉ exA.waitings ∧
       0 ∉ exA.planneds) ∧
     (0 ∈ exA.blockeds → 0 ∉ exA.waitings ∧ 0 ∉ exA.planneds) ∧
     (0 ∈ exA.waitings → 0 ∉ exA.planneds)) :=
  C4_amended reachR_exA 0 (by decide)

/-! ### Claim C5 — edge symmetry -/

/-- Counterexample to C5: after activate-new(0); activate-new(1);
link(0,1); complete(1), the completed node 1 still has 0 in its outgoing
set although 1 was removed from 0's incoming set, so the biconditional
form of edge symmetry fails. -/
theorem C5_counterexample :
    Reachable c5state ∧
    ¬ (∀ i ∈ liveIds c5state, ∀ j ∈ liveIds c5state,
        (j ∈ insOf c5state i ↔ i ∈ outsOf c5state j)) :=
  ⟨reach_c5state, by decide⟩

/-- C5 (amended): in every state reachable by any sequence of the public
operations, the forward direction of edge symmetry holds: whenever B is a
member of A's incoming set, A is a member of B's outgoing set.  (The
converse fails after complete, which leaves the completed node's outgoing
set in place.) -/
theorem C5_amended {T : Type} [DecidableEq T] {s : Toposort T}
    (h : Reachable s) :
    ∀ i j : Nat, j ∈ insOf s i → i ∈ outsOf s j :=
  reachable_symForward h

/-- Witness for C5 (amended) at the concrete reachable state `exA`. -/
theorem C5_witness : 1 ∈ insOf exA 0 ∧ 0 ∈ outsOf exA 1 :=
  ⟨by decide, C5_amended reach_exA 0 1 (by decide)⟩

/-! ### Claim C2 — complete and Waiting dependents -/

/-- Evaluation for C2: after activate-new(0); activate-new(1); link(0,1);
suspend(0); complete(1), the code has inserted the Waiting dependent 0
into Pending — node 0 ends in both Waiting and Pending — because the
dependent loop of `Toposort::erase` checks only for an emptied incoming
set and, unlike `detach` and `release`, never consults `_waitings`. -/
theorem C2_bug_eval :
    0 ∈ (halt 0 exA).waitings ∧ insOf (halt 0 exA) 0 = [1] ∧
    0 ∈ c2state.pendings ∧ 0 ∈ c2state.waitings ∧
    insOf c2state 0 = [] := by decide

/-! ### Claim C6 — peek-ready on empty Pending -/

/-- Evaluation for C6: on a freshly constructed structure Pending is empty
and `top` has no value to return — the source dereferences
`_pendings.begin()` with no emptiness check, so there is no error branch;
the model reports the missing result as `none`. -/
theorem C6_bug_eval :
    empty (init : Toposort Nat) = true ∧
    top (init : Toposort Nat) = none := by decide

/-! ### Claim C7 — idempotence of registration -/

/-- Evaluation for C7: staging the same value twice leaves the node store
unchanged but inserts the freshly allocated (and immediately destroyed)
node's pointer into Planned a second time: Planned holds ids 0 and 1
while only id 0 is live, so the structure is not identical to the
single-stage structure. -/
theorem C7_bug_eval :
    (plan 0 (plan 0 init)).planneds = [0, 1] ∧
    (plan 0 (init : Toposort Nat)).planneds = [0] ∧
    liveIds (plan 0 (plan 0 init)) = [0] ∧
    (1 : Nat) ∉ liveIds (plan 0 (plan 0 init)) ∧
    plan 0 (plan 0 init) ≠ plan 0 (init : Toposort Nat) := by decide

/-! ### Claim C8 — unknown values are no-ops -/

/-- C8: every operation that looks up a task value with no corresponding
node in the store (activate, link, unlink, complete, sever, suspend,
resume) leaves the entire structure unchanged. -/
theorem C8_unknown_value_noop {T : Type} [DecidableEq T] (s : Toposort T)
    (t l : T) (h : t ∉ heapValues s) :
    use t s = s ∧ attach t l s = s ∧ attach l t s = s ∧
    detach t l s = s ∧ detach l t s = s ∧ erase t s = s ∧
    release t s = s ∧ halt t s = s ∧ wake t s = s := by
  have hf : heapFind s t = none := heapFind_eq_none.mpr h
  refine ⟨?_, ?_, ?_, ?_, ?_, ?_, ?_, ?_, ?_⟩
  · simp [use, hf]
  · simp [attach, hf]
  · cases hl : heapFind s l with
    | none => simp [attach, hl]
    | some li => simp [attach, hl, hf]
  · simp [detach, hf]
  · cases hl : heapFind s l with
    | none => simp [detach, hl]
    | some li => simp [detach, hl, hf]
  · simp [erase, hf]
  · simp [release, hf]
  · simp [halt, hf]
  · simp [wake, hf]

/-- Witness for C8 at the concrete state `exA` with the absent value 7. -/
theorem C8_witness :
    (7 : Nat) ∉ heapValues exA ∧
    (use 7 exA = exA ∧ attach 7 0 exA = exA ∧ attach 0 7 exA = exA ∧
     detach 7 0 exA = exA ∧ detach 0 7 exA = exA ∧ erase 7 exA = exA ∧
     release 7 exA = exA ∧ halt 7 exA = exA ∧ wake 7 exA = exA) :=
  ⟨by decide, C8_unknown_value_noop exA 7 0 (by decide)⟩

/-! ### Claim C9 — frame property of sever -/

/-- Counterexample to C9: for the reachable self-loop state (activate-new(0);
link(0,0)), sever(0) erases node 0's own incoming set and moves node 0
from Blocked to Pending, so the node's own incoming set and partition are
not untouched. -/
theorem C9_counterexample :
    Reachable c9pre ∧
    (heapFind c9pre 0 = some 0 ∧
     insOf c9pre 0 = [0] ∧ insOf (release 0 c9pre) 0 = [] ∧
     0 ∈ c9pre.blockeds ∧ 0 ∉ (release 0 c9pre).blockeds ∧
     0 ∈ (release 0 c9pre).pendings) :=
  ⟨reach_c9pre, by decide⟩

/-- C9 (amended): for every existing node V that is not its own dependent
(no self-loop), sever(V) clears V's outgoing set, erases V from each
dependent's incoming set, moves a dependent into Pending (and out of
Blocked) when its incoming set becomes empty and it is not Waiting, and
leaves V's own incoming set and V's own membership in all four partitions
unchanged. -/
theorem C9_amended {T : Type} [DecidableEq T] {s : Toposort T} {t : T}
    {i : Nat} (hf : heapFind s t = some i) (hself : i ∉ outsOf s i) :
    outsOf (release t s) i = [] ∧
    insOf (release t s) i = insOf s i ∧
    (i ∈ (release t s).pendings ↔ i ∈ s.pendings) ∧
    (i ∈ (release t s).blockeds ↔ i ∈ s.blockeds) ∧
    (release t s).waitings = s.waitings ∧
    (release t s).planneds = s.planneds ∧
    (∀ d ∈ outsOf s i, insOf (release t s) d = serase i (insOf s d)) ∧
    (∀ d ∈ outsOf s i, serase i (insOf s d) = [] → d ∉ s.waitings →
      d ∈ (release t s).pendings ∧ d ∉ (release t s).blockeds) := by
  refine ⟨?_, ?_, ?_, ?_, release_waitings hf, release_planneds hf, ?_, ?_⟩
  · rw [release_outsOf hf, if_pos rfl]
  · rw [release_insOf hf, if_neg hself]
  · rw [release_pendings_mem hf]
    constructor
    · rintro (hp | ⟨ho, _, _⟩)
      · exact hp
      · exact absurd ho hself
    · exact Or.inl
  · rw [release_blockeds_mem hf]
    constructor
    · exact fun hb => hb.1
    · intro hb
      refine ⟨hb, ?_⟩
      rintro ⟨ho, _, _⟩
      exact hself ho
  · intro d hd
    rw [release_insOf hf, if_pos hd]
  · intro d hd hser hw
    constructor
    · rw [release_pendings_mem hf]
      exact Or.inr ⟨hd, hser, hw⟩
    · rw [release_blockeds_mem hf]
      rintro ⟨_, hn⟩
      exact hn ⟨hd, hser, hw⟩

/-- Witness for C9 (amended) at the concrete state `exA`, severing the
dependency node 1 (no self-loop). -/
theorem C9_witness :
    (1 ∉ outsOf exA 1) ∧
    (outsOf (release 1 exA) 1 = [] ∧
     insOf (release 1 exA) 1 = insOf exA 1 ∧
     (1 ∈ (release 1 exA).pendings ↔ 1 ∈ exA.pendings) ∧
     (1 ∈ (release 1 exA).blockeds ↔ 1 ∈ exA.blockeds) ∧
     (release 1 exA).waitings = exA.waitings ∧
     (release 1 exA).planneds = exA.planneds ∧
     (∀ d ∈ outsOf exA 1, insOf (release 1 exA) d = serase 1 (insOf exA d)) ∧
     (∀ d ∈ outsOf exA 1, serase 1 (insOf exA d) = [] → d ∉ exA.waitings →
       d ∈ (release 1 exA).pendings ∧ d ∉ (release 1 exA).blockeds)) :=
  ⟨by decide, C9_amended (by decide) (by decide)⟩

/-! ### Claim C10 — resume without a Waiting check -/

/-- C10: for a node that exists but is not in Waiting, resume nevertheless
reclassifies it — inserting it into Pending if its incoming set is empty
and into Blocked otherwise — while removing it from no partition other
than Waiting (which does not contain it), and leaving the store
unchanged. -/
theorem C10_wake_non_waiting {T : Type} [DecidableEq T] {s : Toposort T}
    {t : T} {i : Nat} (hf : heapFind s t = some i) (hw : i ∉ s.waitings) :
    (wake t s).waitings = s.waitings ∧
    (wake t s).planneds = s.planneds ∧
    (wake t s).heap = s.heap ∧
    (insOf s i = [] → (wake t s).pendings = sinsert i s.pendings ∧
      (wake t s).blockeds = s.blockeds) ∧
    (insOf s i ≠ [] → (wake t s).blockeds = sinsert i s.blockeds ∧
      (wake t s).pendings = s.pendings) := by
  have hwe : serase i s.waitings = s.waitings := serase_of_not_mem hw
  have hceq : insOf { s with waitings := serase i s.waitings } i = insOf s i :=
    insOf_of_heap_eq rfl i
  refine ⟨?_, wake_planneds hf, wake_heap hf, ?_, ?_⟩
  · rw [wake_waitings hf, hwe]
  · intro hins
    rw [wake_eq hf]
    unfold wakeMove
    rw [if_pos (hceq.trans hins)]
    exact ⟨by rw [hwe], rfl⟩
  · intro hins
    rw [wake_eq hf]
    unfold wakeMove
    rw [if_neg (fun hc => hins (hceq.symm.trans hc))]
    exact ⟨rfl, rfl⟩

/-! ### Claim C3 — cycle extraction -/

/-- Counterexample to C3: for the reachable two-cycle 0 ↔ 1 the walk
returns the value sequence [0, 1] whose first and last elements differ
(the source's do-while pushes each cycle node exactly once and stops
before repeating the start), and for the reachable deadlocked state in
which the blocked node 0 depends on the still-Planned node 1 the walk
reaches a node with an empty incoming set and produces no sequence at
all (the source dereferences `begin()` of that empty set). -/
theorem C3_counterexample :
    (Reachable c3cyc ∧ cyclic c3cyc = true ∧ cycle c3cyc = some [0, 1] ∧
      ([0, 1] : List Nat).head? ≠ ([0, 1] : List Nat).getLast?) ∧
    (Reachable c3planned ∧ cyclic c3planned = true ∧
      cycle c3planned = none) :=
  ⟨⟨reach_c3cyc, by decide, by decide, by decide⟩,
   ⟨reach_c3planned, by decide, by decide⟩⟩

/-- C3 (amended): in every state satisfying the structure's invariant in
which is-deadlocked() holds and the Planned partition is empty, the
cycle walk succeeds and returns a non-empty sequence of Blocked node
ids in which every consecutive pair is joined by a real dependency edge
and the incoming set of the last element contains the first element
(the wrap-around edge is present, but the first value is not repeated
as the last element of the returned sequence), and extract-cycle()
returns the corresponding non-empty value sequence. -/
theorem C3_amended {T : Type} [DecidableEq T] {s : Toposort T}
    (hI : Inv s) (hcy : cyclic s = true) (hq : s.planneds = []) :
    ∃ ids vals, cycleIds s = some ids ∧ cycle s = some vals ∧
      ids ≠ [] ∧ vals ≠ [] ∧ vals.length = ids.length ∧
      (∀ x ∈ ids, x ∈ s.blockeds) ∧
      List.Chain' (fun a b => b ∈ insOf s a) ids ∧
      (∀ h z, ids.head? = some h → ids.getLast? = some z →
        h ∈ insOf s z) := by
  obtain ⟨ids, hid, hne, hsub, hch, hcl⟩ := cycleIds_spec hI hcy hq
  have hsubl : ∀ x ∈ ids, x ∈ liveIds s :=
    fun x hx => hI.2.2.2.1 x (hsub x hx)
  obtain ⟨vals, hv, hlen⟩ := valuesOf_some ids hsubl
  refine ⟨ids, vals, hid, ?_, hne, ?_, hlen, hsub, hch, hcl⟩
  · simp only [cycle, hid, Option.bind_some]
    exact hv
  · intro hc
    rw [hc, List.length_nil] at hlen
    exact hne (List.eq_nil_of_length_eq_zero hlen.symm)

/-- Witness for C3 (amended) at the concrete two-cycle state `c3cyc`. -/
theorem C3_witness :
    (cyclic c3cyc = true ∧ c3cyc.planneds = []) ∧
    (∃ ids vals, cycleIds c3cyc = some ids ∧ cycle c3cyc = some vals ∧
      ids ≠ [] ∧ vals ≠ [] ∧ vals.length = ids.length ∧
      (∀ x ∈ ids, x ∈ c3cyc.blockeds) ∧
      List.Chain' (fun a b => b ∈ insOf c3cyc a) ids ∧
      (∀ h z, ids.head? = some h → ids.getLast? = some z →
        h ∈ insOf c3cyc z)) :=
  ⟨⟨by decide, by decide⟩, C3_amended (by decide) (by decide) (by decide)⟩

/-- A single staged (Planned) task. -/
def c10pre : Toposort Nat := plan 0 init

/-- Witness for C10 at the Planned-only state `c10pre`: resume(0) on the
non-Waiting node 0 inserts it into Pending (its incoming set is empty)
without removing it from Planned. -/
theorem C10_witness :
    ((0 : Nat) ∉ c10pre.waitings) ∧
    ((wake 0 c10pre).waitings = c10pre.waitings ∧
     (wake 0 c10pre).planneds = c10pre.planneds ∧
     (wake 0 c10pre).heap = c10pre.heap ∧
     (insOf c10pre 0 = [] →
       (wake 0 c10pre).pendings = sinsert 0 c10pre.pendings ∧
       (wake 0 c10pre).blockeds = c10pre.blockeds) ∧
     (insOf c10pre 0 ≠ [] →
       (wake 0 c10pre).blockeds = sinsert 0 c10pre.blockeds ∧
       (wake 0 c10pre).pendings = c10pre.pendings)) :=
  ⟨by decide, C10_wake_non_waiting (by decide) (by decide)⟩

end Cosche
